import Mathlib

/-!
Verification of the `dance` package (Knuth's Dancing Links / Algorithm X
exact-cover solver, `src/index.js`).

The linked structure of the JavaScript implementation is embedded as an
arena: nodes and column headers are addressed by stable natural-number
indices, and every pointer field (`up`, `down`, `left`, `right`, `prev`,
`next`, `header`) is a list mapping an index to an index, exactly as the
spec's design notes prescribe for an ownership-aware reimplementation.
Column lengths are modelled as `Int` (JavaScript numbers under `+= 1` /
`-= 1`).  The fallible array dereferences of `solve` (`matrix[0]`,
`columns[0]`, `columns[col]`) are modelled by `Option`: `none` is the
TypeError the JavaScript code throws there.

Loops of the form `for (n = x[dir]; n !== x; n = n[dir])` are modelled by
fuel-bounded traversal.  Loops whose direction field is never written by
any operation (`left`/`right` are only assigned during construction, and
the header scan performs no mutation) read the traversal list up front;
loops over `up`/`down` links, which cover/uncover mutate, re-read the
current state at every step, as the JavaScript does.
-/

/-- Read index `i` of a pointer array; `0` when out of bounds (never hit by
well-formed runs). -/
def lget (l : List Nat) (i : Nat) : Nat := l.getD i 0

/-- Read index `i` of the `length` array of the headers. -/
def lgetI (l : List Int) (i : Nat) : Int := l.getD i 0

/-- JavaScript `a[k] = v` on an array with `k ≤ a.length` (the only case the
solver reaches): overwrite in place, or append when `k = a.length`. -/
def jsSet (l : List Nat) (k v : Nat) : List Nat :=
  if k < l.length then l.set k v else l ++ [v]

/-- The arena: one list per pointer field.  Header indices `0..nCols-1` are
the column headers in input order and index `nCols` is the root; node
indices `0..nCols-1` are the per-column sentinel head nodes and the data
nodes follow in creation (row-major nonzero cell) order. -/
@[ext]
structure St where
  hPrev : List Nat
  hNext : List Nat
  hLen : List Int
  hHead : List Nat
  nUp : List Nat
  nDown : List Nat
  nLeft : List Nat
  nRight : List Nat
  nHeader : List Nat
  nRow : List Nat
deriving Repr, DecidableEq

def stEmpty : St := ⟨[], [], [], [], [], [], [], [], [], []⟩

/-- `eachNode`/`eachHeader`: the indices visited by
`for (n = cur[f]; n !== stop; n = n[f])`, starting the walk at `cur`,
bounded by `fuel`. -/
def chase (f : Nat → Nat) (stop : Nat) : Nat → Nat → List Nat
  | 0, _ => []
  | fuel+1, cur =>
    let n := f cur
    if n = stop then [] else n :: chase f stop fuel n

/-- Whether the walk of `chase` returns to `stop` before running out of
fuel (rings of a well-formed structure always do). -/
def chaseCloses (f : Nat → Nat) (stop : Nat) : Nat → Nat → Bool
  | 0, _ => false
  | fuel+1, cur =>
    let n := f cur
    if n = stop then true else chaseCloses f stop fuel n

/-- Body of `cover`'s inner loop: splice `colNode` `j` out of its vertical
ring (`colNode.up.down = colNode.down; colNode.down.up = colNode.up;
colNode.header.length -= 1`). -/
def spliceOutV (s : St) (j : Nat) : St :=
  let u := lget s.nUp j
  let d := lget s.nDown j
  let h := lget s.nHeader j
  { s with nDown := s.nDown.set u d
           nUp := s.nUp.set d u
           hLen := s.hLen.set h (lgetI s.hLen h - 1) }

/-- Body of `uncover`'s inner loop: splice `colNode` `j` back into its
vertical ring (`colNode.header.length += 1; colNode.up.down = colNode;
colNode.down.up = colNode`). -/
def spliceInV (s : St) (j : Nat) : St :=
  let u := lget s.nUp j
  let d := lget s.nDown j
  let h := lget s.nHeader j
  { s with hLen := s.hLen.set h (lgetI s.hLen h + 1)
           nDown := s.nDown.set u j
           nUp := s.nUp.set d j }

/-- `cover`'s inner loop over one matrix row: right-links are never written
after construction, so the traversal list is fixed at loop entry. -/
def coverRowNodes (s : St) (rowNode : Nat) : St :=
  (chase (lget s.nRight) rowNode s.nRight.length rowNode).foldl spliceOutV s

/-- `cover`'s outer loop, walking `down` from the column's head; the walk
re-reads the mutated state at each step. -/
def coverColsLoop : Nat → St → Nat → Nat → St
  | 0, s, _, _ => s
  | fuel+1, s, head, cur =>
    let n := lget s.nDown cur
    if n = head then s else coverColsLoop fuel (coverRowNodes s n) head n

/-- `cover(column)` of `src/index.js`. -/
def cover (s : St) (c : Nat) : St :=
  let s1 := { s with hPrev := s.hPrev.set (lget s.hNext c) (lget s.hPrev c) }
  let s2 := { s1 with hNext := s1.hNext.set (lget s1.hPrev c) (lget s1.hNext c) }
  coverColsLoop s2.nUp.length s2 (lget s2.hHead c) (lget s2.hHead c)

/-- `uncover`'s inner loop over one matrix row, walking `left` (fixed after
construction). -/
def uncoverRowNodes (s : St) (rowNode : Nat) : St :=
  (chase (lget s.nLeft) rowNode s.nLeft.length rowNode).foldl spliceInV s

/-- `uncover`'s outer loop, walking `up` from the column's head. -/
def uncoverColsLoop : Nat → St → Nat → Nat → St
  | 0, s, _, _ => s
  | fuel+1, s, head, cur =>
    let n := lget s.nUp cur
    if n = head then s else uncoverColsLoop fuel (uncoverRowNodes s n) head n

/-- `uncover(column)` of `src/index.js`. -/
def uncover (s : St) (c : Nat) : St :=
  let s' := uncoverColsLoop s.nUp.length s (lget s.hHead c) (lget s.hHead c)
  let s1 := { s' with hPrev := s'.hPrev.set (lget s'.hNext c) c }
  { s1 with hNext := s1.hNext.set (lget s1.hPrev c) c }

/-- The `eachHeader` fold of `recurse` that picks the column to work on:
keep the first header whose `length` is strictly smaller than the current
best's. -/
def chooseBest (s : St) (hs : List Nat) : Option Nat :=
  hs.foldl
    (fun acc h =>
      match acc with
      | none => some h
      | some b => if lgetI s.hLen h < lgetI s.hLen b then some h else acc)
    none

/-- The row loop of `recurse`: for each `rowNode` walking `down` from the
chosen column's head (re-read from the current state, since the nested
covers mutate it), record the row id at depth `k`, cover the headers of
the row's other nodes (rightward), recurse via `recNext`, then uncover
them leftward. -/
def rowLoop
    (recNext : St → List (List Nat) → List Nat → St × List (List Nat) × List Nat)
    (k : Nat) :
    Nat → St → List (List Nat) → List Nat → Nat → Nat →
      St × List (List Nat) × List Nat
  | 0, s, sols, parts, _, _ => (s, sols, parts)
  | fuel+1, s, sols, parts, head, cur =>
    let n := lget s.nDown cur
    if n = head then (s, sols, parts)
    else
      let parts := jsSet parts k (lget s.nRow n)
      let s := (chase (lget s.nRight) n s.nRight.length n).foldl
        (fun s j => cover s (lget s.nHeader j)) s
      let (s, sols, parts) := recNext s sols parts
      let s := (chase (lget s.nLeft) n s.nLeft.length n).foldl
        (fun s j => uncover s (lget s.nHeader j)) s
      rowLoop recNext k fuel s sols parts head n

/-- `recurse(root, options, state)` of `src/index.js`.  `max = 0` encodes an
absent/zero `maxSolutions`.  The triple is the (mutated) structure, the
shared `solutions` accumulator and the shared `partials` array.  `fuel`
bounds the recursion depth; `solve` passes `nCols + 1`, which every run on
a well-formed structure stays under (each level covers at least one
column). -/
def recurse : Nat → St → Nat → Nat → Nat → List (List Nat) → List Nat →
    St × List (List Nat) × List Nat
  | 0, s, _, _, _, sols, parts => (s, sols, parts)
  | fuel+1, s, root, max, k, sols, parts =>
    if max ≠ 0 ∧ sols.length = max then (s, sols, parts)
    else if lget s.hNext root = root then (s, sols ++ [parts], parts)
    else
      match chooseBest s (chase (lget s.hNext) root s.hNext.length root) with
      | none => (s, sols, parts)
      | some best =>
        if 0 < lgetI s.hLen best then
          let s := cover s best
          let r := rowLoop (fun s sols parts => recurse fuel s root max (k+1) sols parts)
            k s.nUp.length s sols parts (lget s.hHead best) (lget s.hHead best)
          (uncover r.1 best, r.2.1, r.2.2)
        else (s, sols, parts)

/-- `createNode(options)` of `src/index.js`: allocate a fresh node and
splice it after `left` in its row ring and after `up` in its column ring;
an absent neighbour self-links the node, exactly as the JavaScript
default-assignment expressions do. -/
def createNode (s : St) (column : Nat) (leftOpt upOpt : Option Nat) : St × Nat :=
  let n := s.nUp.length
  let s := { s with nUp := s.nUp ++ [n], nDown := s.nDown ++ [n],
                    nLeft := s.nLeft ++ [n], nRight := s.nRight ++ [n],
                    nHeader := s.nHeader ++ [column], nRow := s.nRow ++ [0] }
  let l := leftOpt.getD n
  let u := upOpt.getD n
  let s := { s with nLeft := s.nLeft.set n l }
  let s := { s with nRight := s.nRight.set n (lget s.nRight l) }
  let s := { s with nLeft := s.nLeft.set (lget s.nRight l) n }
  let s := { s with nRight := s.nRight.set l n }
  let s := { s with nUp := s.nUp.set n u }
  let s := { s with nDown := s.nDown.set n (lget s.nDown u) }
  let s := { s with nUp := s.nUp.set (lget s.nDown u) n }
  let s := { s with nDown := s.nDown.set u n }
  (s, n)

/-- One iteration of the column-building loop of `solve`: header `i` is
appended, its head node allocated, and the header spliced after header
`i - 1` (or self-linked when `i = 0`). -/
def addColumn (s : St) (i : Nat) : St :=
  if i = 0 then
    let s := { s with hPrev := s.hPrev ++ [0], hNext := s.hNext ++ [0],
                      hLen := s.hLen ++ [0], hHead := s.hHead ++ [0] }
    let p := createNode s 0 none none
    let s := { p.1 with hHead := p.1.hHead.set 0 p.2 }
    let s := { s with hPrev := s.hPrev.set (lget s.hNext 0) 0 }
    { s with hNext := s.hNext.set 0 0 }
  else
    let p := i - 1
    let s := { s with hPrev := s.hPrev ++ [p], hNext := s.hNext ++ [lget s.hNext p],
                      hLen := s.hLen ++ [0], hHead := s.hHead ++ [0] }
    let q := createNode s i (some (lget s.hHead p)) none
    let s := { q.1 with hHead := q.1.hHead.set i q.2 }
    let s := { s with hPrev := s.hPrev.set (lget s.hNext p) i }
    { s with hNext := s.hNext.set p i }

/-- The `row.forEach` body of `solve`: for a nonzero cell at column `col`,
append a node at the bottom of column `col`'s ring and after the previous
node of the same row; `columns[col]` being absent (`col` beyond the first
row's length) is the TypeError at `column.head`. -/
def addRow (nCols : Nat) (s : St) (rowIndex : Nat) (row : List Nat) : Option St :=
  (row.enum.foldl
    (fun acc p =>
      match acc with
      | none => none
      | some (s, left) =>
        if p.2 ≠ 0 then
          if p.1 < nCols then
            let q := createNode s p.1 left (some (lget s.nUp (lget s.hHead p.1)))
            let s := { q.1 with nRow := q.1.nRow.set q.2 rowIndex }
            let s := { s with hLen := s.hLen.set p.1 (lgetI s.hLen p.1 + 1) }
            some (s, some q.2)
          else none
        else acc)
    (some (s, none))).map (·.1)

def buildRows (nCols : Nat) (s : St) (m : List (List Nat)) : Option St :=
  m.enum.foldl
    (fun acc p =>
      match acc with
      | none => none
      | some s => addRow nCols s p.1 p.2)
    (some s)

/-- Root creation at the end of `solve`: the root (header index `nCols`) is
spliced before `columns[0]`. -/
def addRoot (s : St) (nCols : Nat) : St :=
  let s := { s with hPrev := s.hPrev ++ [lget s.hPrev 0], hNext := s.hNext ++ [0],
                    hLen := s.hLen ++ [0], hHead := s.hHead ++ [0] }
  let s := { s with hNext := s.hNext.set (lget s.hPrev 0) nCols }
  { s with hPrev := s.hPrev.set 0 nCols }

/-- `solve(matrix, options)` of `src/index.js`.  `maxSolutions = 0` encodes
an absent option.  `none` is the TypeError raised on `matrix[0]` for an
empty matrix, on `columns[col]` for a ragged row longer than the first,
and on `columns[0]` when the first row is empty. -/
def solve (m : List (List Nat)) (maxSolutions : Nat) : Option (List (List Nat)) :=
  match m with
  | [] => none
  | r0 :: _ =>
    let nCols := r0.length
    let s := (List.range nCols).foldl addColumn stEmpty
    match buildRows nCols s m with
    | none => none
    | some s =>
      if nCols = 0 then none
      else some (recurse (nCols + 1) (addRoot s nCols) nCols maxSolutions 0 [] []).2.1

/-! ### Exact-cover statements about the input matrix -/

/-- Entry `(r, c)` of the input matrix (`0` outside it). -/
def entry (m : List (List Nat)) (r c : Nat) : Nat := lget (m.getD r []) c

/-- Column-wise sum of the selected rows at column `c`. -/
def colSum (m : List (List Nat)) (sol : List Nat) (c : Nat) : Nat :=
  (sol.map (fun r => entry m r c)).sum

/-- The selected rows sum to exactly `1` in every column of the matrix. -/
def IsCover (m : List (List Nat)) (sol : List Nat) : Prop :=
  ∀ c < (m.headD []).length, colSum m sol c = 1

instance (m : List (List Nat)) (sol : List Nat) : Decidable (IsCover m sol) :=
  Nat.decidableBallLT _ _

/-- A matrix on which the stale-`partials` slice of `recurse` corrupts the
output: the exact covers are `{0,1,2}` and `{0,3}`, found in that order
and at different depths. -/
def exA : List (List Nat) :=
  [[1, 0, 0], [0, 1, 0], [0, 0, 1], [0, 1, 1]]

/-- A matrix on which the stale-`partials` slice makes the solver report a
row twice in one solution: the exact covers are `{0,1,2}` and `{3,2}`. -/
def exB : List (List Nat) :=
  [[1, 1, 0, 0, 0], [0, 0, 1, 0, 0], [0, 0, 0, 1, 1],
   [1, 1, 1, 0, 0], [1, 0, 0, 1, 0], [1, 0, 0, 0, 1]]

/-- The spec's concrete scenario (also the package's own test matrix). -/
def exSpec : List (List Nat) :=
  [[1, 0, 0, 1, 0, 0, 1], [1, 0, 0, 1, 0, 0, 0], [0, 0, 0, 1, 1, 0, 1],
   [0, 0, 1, 0, 1, 1, 0], [0, 1, 1, 0, 0, 1, 1], [0, 1, 0, 0, 0, 0, 1]]

/-! ### Sanity checks: the embedding reproduces the package's test and the
spec's concrete scenarios. -/

set_option maxRecDepth 10000

example : solve exSpec 0 = some [[1, 3, 5]] := by decide

example : solve [[1]] 0 = some [[0]] := by decide

/-! ### Claims C1-C4: the stale-`partials` slice

`recurse` records a solution as `partials.slice(0)`, a copy of the whole
shared `partials` array.  Entries written at depths deeper than the
current one by previously explored branches are never truncated, so when
a solution is found at a shallower depth than an earlier one, the stale
tail is copied into the reported solution. -/

/-- C1: the claim "every solution returned by solve sums to exactly 1 in
every column" fails: on `exA` the solver returns `[0, 3, 2]`, whose
column-wise sum is 2 in the last column (row 2 is a stale entry left over
from the earlier, deeper branch `[0, 1, 2]`). -/
theorem solve_returns_noncover :
    solve exA 0 = some [[0, 1, 2], [0, 3, 2]] ∧ ¬ IsCover exA [0, 3, 2] := by
  decide

/-- C2: the claim "no solution contains the same row index twice; each
solution lists exactly the rows chosen on its search path" fails: on
`exB` the solver returns `[3, 2, 2]`, which lists row 2 twice (the second
occurrence is a stale entry from the earlier branch `[0, 1, 2]`, not a
row chosen on the path). -/
theorem solve_returns_duplicate_row :
    solve exB 0 = some [[0, 1, 2], [3, 2, 2]] ∧ ¬ ([3, 2, 2] : List Nat).Nodup := by
  decide

/-- C3: the claim "every exact cover appears in the returned list" fails:
`[0, 3]` is an exact cover of `exA`, but no returned solution consists of
the rows `{0, 3}` (its slot is taken by the corrupted `[0, 3, 2]`). -/
theorem solve_omits_cover :
    solve exA 0 = some [[0, 1, 2], [0, 3, 2]] ∧ IsCover exA [0, 3] ∧
      ∀ sol ∈ [[0, 1, 2], [0, 3, 2]], ¬(sol ⊆ [0, 3] ∧ [0, 3] ⊆ sol) := by
  decide

/-- C4: the claim "with `maxSolutions = m` and fewer than `m` solutions,
all of them are returned" fails: `exA` has exactly the two exact covers
`{0, 1, 2}` and `{0, 3}`, yet with `maxSolutions = 3` the returned list
does not contain the cover `{0, 3}`. -/
theorem solve_capped_omits_cover :
    solve exA 3 = some [[0, 1, 2], [0, 3, 2]] ∧ IsCover exA [0, 3] ∧
      ∀ sol ∈ [[0, 1, 2], [0, 3, 2]], ¬(sol ⊆ [0, 3] ∧ [0, 3] ⊆ sol) := by
  decide

/-! ### Claim C9: determinism -/

/-- C9: `solve` carries no state across calls: it is a pure function of the
input matrix (and cap), so equal matrices give equal solution lists. -/
theorem solve_deterministic :
    ∀ m₁ m₂ : List (List Nat), m₁ = m₂ → solve m₁ 0 = solve m₂ 0 := by
  intro m₁ m₂ h
  rw [h]

theorem solve_deterministic_witness : solve exSpec 0 = solve exSpec 0 :=
  solve_deterministic exSpec exSpec rfl

/-! ### Claim C10: degenerate inputs -/

/-- C10: a matrix with no rows (the `matrix[0]` dereference) or whose first
row is empty (the `columns[0]` dereference) makes `solve` fail with a
TypeError (`none`) rather than return a value. -/
theorem solve_degenerate_none :
    ∀ (m : List (List Nat)) (cap : Nat), m = [] ∨ (∃ rest, m = [] :: rest) →
      solve m cap = none := by
  rintro m cap (rfl | ⟨rest, rfl⟩)
  · rfl
  · simp only [solve]
    cases h : buildRows (List.length ([] : List Nat))
        ((List.range (List.length ([] : List Nat))).foldl addColumn stEmpty)
        ([] :: rest) <;> simp [h]

theorem solve_degenerate_none_witness : solve [] 0 = none :=
  solve_degenerate_none [] 0 (Or.inl rfl)

/-! ### Claim C5: the MRV selection and the dead branch -/

/-- The selection fold of `recurse` with an explicit accumulator and an
abstract key, for reasoning by induction. -/
def pickMin (key : Nat → Int) (acc : Option Nat) (hs : List Nat) : Option Nat :=
  hs.foldl
    (fun acc h =>
      match acc with
      | none => some h
      | some b => if key h < key b then some h else acc)
    acc

lemma pickMin_spec (key : Nat → Int) :
    ∀ (hs : List Nat) (b : Nat),
      ∃ c pre suf,
        pickMin key (some b) hs = some c ∧
        b :: hs = pre ++ c :: suf ∧
        (∀ x ∈ b :: hs, key c ≤ key x) ∧
        (∀ x ∈ pre, key c < key x) := by
  intro hs
  induction hs with
  | nil => exact fun b => ⟨b, [], [], rfl, rfl, by simp, by simp⟩
  | cons h t ih =>
    intro b
    by_cases hlt : key h < key b
    · obtain ⟨c, pre, suf, h1, h2, h3, h4⟩ := ih h
      refine ⟨c, b :: pre, suf, ?_, ?_, ?_, ?_⟩
      · simpa [pickMin, hlt] using h1
      · simp [← h2]
      · intro x hx
        rcases List.mem_cons.mp hx with rfl | hx
        · exact le_of_lt (lt_of_le_of_lt (h3 h (by simp)) hlt)
        · exact h3 x hx
      · intro x hx
        rcases List.mem_cons.mp hx with rfl | hx
        · exact lt_of_le_of_lt (h3 h (by simp)) hlt
        · exact h4 x hx
    · obtain ⟨c, pre, suf, h1, h2, h3, h4⟩ := ih b
      have hstep : pickMin key (some b) (h :: t) = pickMin key (some b) t := by
        simp [pickMin, hlt]
      cases pre with
      | nil =>
        obtain ⟨hb, hsuf⟩ : b = c ∧ t = suf := by
          simpa using h2
        subst hb
        refine ⟨b, [], h :: t, hstep.trans h1, rfl, ?_, by simp⟩
        intro x hx
        rcases List.mem_cons.mp hx with rfl | hx
        · exact le_refl _
        · rcases List.mem_cons.mp hx with rfl | hx
          · exact le_of_not_lt hlt
          · exact h3 x (by simp [hx])
      | cons p pre' =>
        obtain ⟨hb, ht⟩ : b = p ∧ t = pre' ++ c :: suf := by
          simpa using h2
        subst hb
        have hcb : key c < key b := h4 b (by simp)
        refine ⟨c, b :: h :: pre', suf, hstep.trans h1, by simp [ht], ?_, ?_⟩
        · intro x hx
          rcases List.mem_cons.mp hx with rfl | hx
          · exact h3 x (by simp)
          · rcases List.mem_cons.mp hx with rfl | hx
            · exact le_of_lt (lt_of_lt_of_le hcb (le_of_not_lt hlt))
            · exact h3 x (by simp [hx])
        · intro x hx
          rcases List.mem_cons.mp hx with rfl | hx
          · exact hcb
          · rcases List.mem_cons.mp hx with rfl | hx
            · exact lt_of_lt_of_le hcb (le_of_not_lt hlt)
            · exact h4 x (by simp [hx])

lemma chooseBest_spec (s : St) (h0 : Nat) (rest : List Nat) :
    ∃ b pre suf, chooseBest s (h0 :: rest) = some b ∧
      h0 :: rest = pre ++ b :: suf ∧
      (∀ x ∈ h0 :: rest, lgetI s.hLen b ≤ lgetI s.hLen x) ∧
      (∀ x ∈ pre, lgetI s.hLen b < lgetI s.hLen x) :=
  pickMin_spec (fun h => lgetI s.hLen h) rest h0

lemma recurse_dead_branch (fuel : Nat) (s : St) (root mx k : Nat)
    (sols : List (List Nat)) (parts : List Nat) (b : Nat)
    (h1 : lget s.hNext root ≠ root)
    (h2 : chooseBest s (chase (lget s.hNext) root s.hNext.length root) = some b)
    (h3 : lgetI s.hLen b = 0) :
    recurse (fuel + 1) s root mx k sols parts = (s, sols, parts) := by
  rw [recurse]
  by_cases hcap : mx ≠ 0 ∧ sols.length = mx
  · rw [if_pos hcap]
  · rw [if_neg hcap, if_neg h1, h2]
    simp only []
    rw [if_neg]
    rw [h3]
    exact lt_irrefl 0

/-- C5: (1) in an invocation of `recurse` whose header scan sees a
non-empty ring, the chosen header is the first one in ring order attaining
the minimum `length` (every scanned header has a `length` at least as
large, and the headers scanned before the chosen one are strictly larger);
(2) if the chosen header's `length` is 0, the invocation returns its
state, solution list and partial list unchanged: nothing is covered, no
recursion happens, no solution is added. -/
theorem mrv_chooses_first_min :
    (∀ (s : St) (h0 : Nat) (rest : List Nat),
      ∃ b pre suf, chooseBest s (h0 :: rest) = some b ∧
        h0 :: rest = pre ++ b :: suf ∧
        (∀ x ∈ h0 :: rest, lgetI s.hLen b ≤ lgetI s.hLen x) ∧
        (∀ x ∈ pre, lgetI s.hLen b < lgetI s.hLen x)) ∧
    (∀ (fuel : Nat) (s : St) (root mx k : Nat) (sols : List (List Nat))
        (parts : List Nat) (b : Nat),
      lget s.hNext root ≠ root →
      chooseBest s (chase (lget s.hNext) root s.hNext.length root) = some b →
      lgetI s.hLen b = 0 →
      recurse (fuel + 1) s root mx k sols parts = (s, sols, parts)) :=
  ⟨chooseBest_spec, recurse_dead_branch⟩

/-- A two-header structure (root = 1, one empty column 0) exercising both
parts of the C5 theorem. -/
def stW : St := ⟨[1, 0], [1, 0], [0, 0], [0, 0], [], [], [], [], [], []⟩

theorem mrv_chooses_first_min_witness :
    (∃ b pre suf, chooseBest stW [0] = some b ∧
      ([0] : List Nat) = pre ++ b :: suf ∧
      (∀ x ∈ ([0] : List Nat), lgetI stW.hLen b ≤ lgetI stW.hLen x) ∧
      (∀ x ∈ pre, lgetI stW.hLen b < lgetI stW.hLen x)) ∧
    recurse 1 stW 1 0 0 [] [] = (stW, [], []) :=
  ⟨mrv_chooses_first_min.1 stW 0 [],
   mrv_chooses_first_min.2 0 stW 1 0 0 [] [] 0 (by decide) (by decide) (by decide)⟩

/-! ### Ring toolkit

`RingChain f a l b` says the walk following `f` from `a` visits exactly the
nodes of `l` in order and then reaches `b`.  The rings of the linked
structure are chains from a node back to itself. -/

def RingChain (f : Nat → Nat) : Nat → List Nat → Nat → Prop
  | a, [], b => f a = b
  | a, x :: xs, b => f a = x ∧ RingChain f x xs b

lemma ringChain_append (f : Nat → Nat) :
    ∀ (u : List Nat) (a x : Nat) (v : List Nat) (b : Nat),
      RingChain f a (u ++ x :: v) b ↔ RingChain f a u x ∧ RingChain f x v b := by
  intro u
  induction u with
  | nil => intro a x v b; simp [RingChain]
  | cons y u' ih =>
    intro a x v b
    constructor
    · intro h
      have h' : f a = y ∧ RingChain f y (u' ++ x :: v) b := h
      have h2 := (ih y x v b).mp h'.2
      exact ⟨⟨h'.1, h2.1⟩, h2.2⟩
    · intro h
      have h1 : f a = y ∧ RingChain f y u' x := h.1
      exact ⟨h1.1, (ih y x v b).mpr ⟨h1.2, h.2⟩⟩

lemma chase_of_chain (f : Nat → Nat) (stop : Nat) :
    ∀ (l : List Nat) (a fuel : Nat), RingChain f a l stop → stop ∉ l →
      l.length < fuel → chase f stop fuel a = l := by
  intro l
  induction l with
  | nil =>
    intro a fuel h _ hfuel
    obtain ⟨fuel, rfl⟩ := Nat.exists_eq_succ_of_ne_zero (Nat.pos_iff_ne_zero.mp hfuel)
    have h' : f a = stop := h
    simp [chase, h']
  | cons x xs ih =>
    intro a fuel h hstop hfuel
    obtain ⟨hfa, hch⟩ := h
    obtain ⟨fuel, rfl⟩ := Nat.exists_eq_succ_of_ne_zero
      (Nat.pos_iff_ne_zero.mp (Nat.lt_of_le_of_lt (Nat.zero_le _) hfuel))
    have hx : x ≠ stop := fun he => hstop (he ▸ List.mem_cons_self x xs)
    simp only [chase, hfa, if_neg hx]
    exact congrArg (x :: ·)
      (ih x fuel hch (fun hm => hstop (List.mem_cons_of_mem _ hm))
        (Nat.lt_of_succ_lt_succ hfuel))

lemma chaseCloses_of_chain (f : Nat → Nat) (stop : Nat) :
    ∀ (l : List Nat) (a fuel : Nat), RingChain f a l stop → stop ∉ l →
      l.length < fuel → chaseCloses f stop fuel a = true := by
  intro l
  induction l with
  | nil =>
    intro a fuel h _ hfuel
    obtain ⟨fuel, rfl⟩ := Nat.exists_eq_succ_of_ne_zero (Nat.pos_iff_ne_zero.mp hfuel)
    have h' : f a = stop := h
    simp [chaseCloses, h']
  | cons x xs ih =>
    intro a fuel h hstop hfuel
    obtain ⟨hfa, hch⟩ := h
    obtain ⟨fuel, rfl⟩ := Nat.exists_eq_succ_of_ne_zero
      (Nat.pos_iff_ne_zero.mp (Nat.lt_of_le_of_lt (Nat.zero_le _) hfuel))
    have hx : x ≠ stop := fun he => hstop (he ▸ List.mem_cons_self x xs)
    simp only [chaseCloses, hfa, if_neg hx]
    exact ih x fuel hch (fun hm => hstop (List.mem_cons_of_mem _ hm))
      (Nat.lt_of_succ_lt_succ hfuel)

lemma chain_of_chase (f : Nat → Nat) (stop : Nat) :
    ∀ (fuel cur : Nat), chaseCloses f stop fuel cur = true →
      RingChain f cur (chase f stop fuel cur) stop ∧
        stop ∉ chase f stop fuel cur := by
  intro fuel
  induction fuel with
  | zero => intro cur h; simp [chaseCloses] at h
  | succ fuel ih =>
    intro cur h
    by_cases hn : f cur = stop
    · simp [chase, chaseCloses, hn, RingChain]
    · simp only [chaseCloses, if_neg hn] at h
      obtain ⟨h1, h2⟩ := ih (f cur) h
      simp only [chase, if_neg hn]
      exact ⟨⟨rfl, h1⟩, by
        intro hm
        rcases List.mem_cons.mp hm with he | hm
        · exact hn he.symm
        · exact h2 hm⟩

lemma chain_reverse (f g : Nat → Nat) :
    ∀ (l : List Nat) (a b : Nat), RingChain f a l b →
      (∀ x ∈ a :: l, g (f x) = x) → RingChain g b l.reverse a := by
  intro l
  induction l with
  | nil =>
    intro a b h hg
    show g b = a
    rw [← h]
    exact hg a (by simp)
  | cons x xs ih =>
    intro a b h hg
    obtain ⟨hfa, hch⟩ := h
    have ihx := ih x b hch (fun y hy => hg y (List.mem_cons_of_mem a hy))
    rw [List.reverse_cons, show [x] = x :: [] from rfl, ringChain_append]
    refine ⟨ihx, ?_⟩
    show g x = a
    rw [← hfa]
    exact hg a (by simp)

lemma chain_pred (f : Nat → Nat) :
    ∀ (l : List Nat) (a b : Nat), RingChain f a l b →
      ∀ x ∈ l, ∃ y ∈ a :: l, f y = x := by
  intro l
  induction l with
  | nil => intro a b _ x hx; simp at hx
  | cons z zs ih =>
    intro a b h x hx
    obtain ⟨hfa, hch⟩ := h
    rcases List.mem_cons.mp hx with rfl | hx
    · exact ⟨a, by simp, hfa⟩
    · obtain ⟨y, hy, hfy⟩ := ih z b hch x hx
      exact ⟨y, List.mem_cons_of_mem a hy, hfy⟩

lemma chain_pred_ring (f : Nat → Nat) (l : List Nat) (a : Nat)
    (h : RingChain f a l a) : ∀ x ∈ a :: l, ∃ y ∈ a :: l, f y = x := by
  intro x hx
  rcases List.mem_cons.mp hx with rfl | hx
  · rcases List.eq_nil_or_concat l with rfl | ⟨l', z, rfl⟩
    · exact ⟨x, by simp, h⟩
    · rw [List.concat_eq_append] at h
      have h2 := (ringChain_append f l' x z [] x).mp h
      exact ⟨z, by simp, h2.2⟩
  · exact chain_pred f l a a h x hx

lemma ring_g_mem (f g : Nat → Nat) (l : List Nat) (a : Nat)
    (h : RingChain f a l a) (hg : ∀ x ∈ a :: l, g (f x) = x) :
    ∀ x ∈ a :: l, g x ∈ a :: l := by
  intro x hx
  obtain ⟨y, hy, hfy⟩ := chain_pred_ring f l a h x hx
  rw [← hfy, hg y hy]
  exact hy

lemma ring_f_mem (f : Nat → Nat) (l : List Nat) (a : Nat)
    (h : RingChain f a l a) : ∀ x ∈ a :: l, f x ∈ a :: l := by
  intro x hx
  rcases List.mem_cons.mp hx with rfl | hx
  · cases l with
    | nil => simpa [RingChain] using h
    | cons z zs => simp [h.1]
  · obtain ⟨u, v, rfl⟩ := List.append_of_mem hx
    have := (ringChain_append f u a x v a).mp h
    cases v with
    | nil =>
      have : f x = a := this.2
      simp [this]
    | cons w ws =>
      have : f x = w := this.2.1
      simp [this]

lemma chase_congr (f f' : Nat → Nat) (stop : Nat) :
    ∀ (fuel cur : Nat),
      (∀ x ∈ cur :: chase f stop fuel cur, f' x = f x) →
      chase f' stop fuel cur = chase f stop fuel cur := by
  intro fuel
  induction fuel with
  | zero => intro cur _; rfl
  | succ fuel ih =>
    intro cur hag
    have hcur : f' cur = f cur := hag cur (by simp)
    by_cases hn : f cur = stop
    · simp [chase, hn, hcur]
    · have hrest : ∀ x ∈ f cur :: chase f stop fuel (f cur), f' x = f x := by
        intro x hx
        refine hag x ?_
        simp only [chase, if_neg hn] at *
        exact List.mem_cons_of_mem cur hx
      simp only [chase, if_neg hn, hcur]
      exact congrArg (f cur :: ·) (ih (f cur) hrest)

lemma ring_rotate (f : Nat → Nat) (a x : Nat) (u v : List Nat)
    (h : RingChain f a (u ++ x :: v) a) :
    RingChain f x (v ++ a :: u) x ∧
      (a :: (u ++ x :: v)).Perm (x :: (v ++ a :: u)) := by
  have h1 := (ringChain_append f u a x v a).mp h
  constructor
  · exact (ringChain_append f v x a u x).mpr ⟨h1.2, h1.1⟩
  · have e1 : a :: (u ++ x :: v) = (a :: u) ++ (x :: v) := by simp
    have e2 : x :: (v ++ a :: u) = (x :: v) ++ (a :: u) := by simp
    rw [e1, e2]
    exact List.perm_append_comm

/-! ### Pointer-array access lemmas -/

lemma lget_set_eq {l : List Nat} {i : Nat} (v : Nat) (h : i < l.length) :
    lget (l.set i v) i = v := by
  simp [lget, List.getD_eq_getElem?_getD, List.getElem?_set, h]

lemma lget_set_ne {l : List Nat} {i j : Nat} (v : Nat) (h : i ≠ j) :
    lget (l.set i v) j = lget l j := by
  simp [lget, List.getD_eq_getElem?_getD, List.getElem?_set_ne h]

lemma lset_oob {l : List Nat} {i : Nat} (v : Nat) (h : l.length ≤ i) :
    l.set i v = l := List.set_eq_of_length_le h

lemma lset_self {l : List Nat} {i v : Nat} (h : lget l i = v) : l.set i v = l := by
  by_cases hb : i < l.length
  · apply List.ext_getElem?
    intro n
    rcases eq_or_ne i n with rfl | hne
    · rw [List.getElem?_set_self hb, List.getElem?_eq_getElem hb]
      have : l[i] = v := by
        simpa [lget, List.getD_eq_getElem?_getD, List.getElem?_eq_getElem hb] using h
      rw [this]
    · exact List.getElem?_set_ne hne
  · exact lset_oob v (Nat.le_of_not_lt hb)

lemma lgetI_set_eq {l : List Int} {i : Nat} (v : Int) (h : i < l.length) :
    lgetI (l.set i v) i = v := by
  simp [lgetI, List.getD_eq_getElem?_getD, List.getElem?_set, h]

lemma lgetI_set_ne {l : List Int} {i j : Nat} (v : Int) (h : i ≠ j) :
    lgetI (l.set i v) j = lgetI l j := by
  simp [lgetI, List.getD_eq_getElem?_getD, List.getElem?_set_ne h]

lemma lsetI_self {l : List Int} {i : Nat} {v : Int} (h : lgetI l i = v) :
    l.set i v = l := by
  by_cases hb : i < l.length
  · apply List.ext_getElem?
    intro n
    rcases eq_or_ne i n with rfl | hne
    · rw [List.getElem?_set_self hb, List.getElem?_eq_getElem hb]
      have : l[i] = v := by
        simpa [lgetI, List.getD_eq_getElem?_getD, List.getElem?_eq_getElem hb] using h
      rw [this]
    · exact List.getElem?_set_ne hne
  · exact List.set_eq_of_length_le (Nat.le_of_not_lt hb)

/-! ### Splice algebra

The central facts behind `uncover` being the exact inverse of `cover`:
splicing a vertically coherent node back in immediately after splicing it
out is the identity, and splicing out one node preserves the coherence of
every other node. -/

/-- Local vertical coherence (plus bounds) of node `j`: its up/down
neighbours point back at it. -/
def Pcond (t : St) (j : Nat) : Prop :=
  lget t.nDown (lget t.nUp j) = j ∧ lget t.nUp (lget t.nDown j) = j ∧
    lget t.nUp j < t.nDown.length ∧ lget t.nDown j < t.nUp.length

lemma spliceOutV_nDown (t : St) (j : Nat) :
    (spliceOutV t j).nDown = t.nDown.set (lget t.nUp j) (lget t.nDown j) := rfl

lemma spliceOutV_nUp (t : St) (j : Nat) :
    (spliceOutV t j).nUp = t.nUp.set (lget t.nDown j) (lget t.nUp j) := rfl

lemma spliceOutV_hLen (t : St) (j : Nat) :
    (spliceOutV t j).hLen = t.hLen.set (lget t.nHeader j)
      (lgetI t.hLen (lget t.nHeader j) - 1) := rfl

lemma spliceOutV_rest (t : St) (j : Nat) :
    (spliceOutV t j).nLeft = t.nLeft ∧ (spliceOutV t j).nRight = t.nRight ∧
    (spliceOutV t j).nHeader = t.nHeader ∧ (spliceOutV t j).nRow = t.nRow ∧
    (spliceOutV t j).hPrev = t.hPrev ∧ (spliceOutV t j).hNext = t.hNext ∧
    (spliceOutV t j).hHead = t.hHead :=
  ⟨rfl, rfl, rfl, rfl, rfl, rfl, rfl⟩

lemma spliceOutV_len (t : St) (j : Nat) :
    (spliceOutV t j).nDown.length = t.nDown.length ∧
    (spliceOutV t j).nUp.length = t.nUp.length ∧
    (spliceOutV t j).hLen.length = t.hLen.length := by
  refine ⟨?_, ?_, ?_⟩ <;> simp [spliceOutV_nDown, spliceOutV_nUp, spliceOutV_hLen]

lemma spliceInV_nDown (t : St) (j : Nat) :
    (spliceInV t j).nDown = t.nDown.set (lget t.nUp j) j := rfl

lemma spliceInV_nUp (t : St) (j : Nat) :
    (spliceInV t j).nUp = t.nUp.set (lget t.nDown j) j := rfl

lemma spliceInV_hLen (t : St) (j : Nat) :
    (spliceInV t j).hLen = t.hLen.set (lget t.nHeader j)
      (lgetI t.hLen (lget t.nHeader j) + 1) := rfl

lemma spliceInV_rest (t : St) (j : Nat) :
    (spliceInV t j).nLeft = t.nLeft ∧ (spliceInV t j).nRight = t.nRight ∧
    (spliceInV t j).nHeader = t.nHeader ∧ (spliceInV t j).nRow = t.nRow ∧
    (spliceInV t j).hPrev = t.hPrev ∧ (spliceInV t j).hNext = t.hNext ∧
    (spliceInV t j).hHead = t.hHead :=
  ⟨rfl, rfl, rfl, rfl, rfl, rfl, rfl⟩

/-- Splicing a node back in immediately after splicing it out restores the
state, provided the node's vertical neighbours pointed back at it. -/
lemma spliceIn_spliceOut (t : St) (j : Nat)
    (h1 : lget t.nDown (lget t.nUp j) = j)
    (h2 : lget t.nUp (lget t.nDown j) = j) :
    spliceInV (spliceOutV t j) j = t := by
  have hu : lget (spliceOutV t j).nUp j = lget t.nUp j := by
    rw [spliceOutV_nUp]
    rcases eq_or_ne (lget t.nDown j) j with he | hne
    · by_cases hb : j < t.nUp.length
      · rw [he, lget_set_eq _ hb]
      · rw [he, lset_oob _ (Nat.le_of_not_lt hb)]
    · rw [lget_set_ne _ hne]
  have hd : lget (spliceOutV t j).nDown j = lget t.nDown j := by
    rw [spliceOutV_nDown]
    rcases eq_or_ne (lget t.nUp j) j with he | hne
    · by_cases hb : j < t.nDown.length
      · rw [he, lget_set_eq _ hb]
      · rw [he, lset_oob _ (Nat.le_of_not_lt hb)]
    · rw [lget_set_ne _ hne]
  have hh : lget (spliceOutV t j).nHeader j = lget t.nHeader j := by
    rw [(spliceOutV_rest t j).2.2.1]
  ext : 1
  · rw [(spliceInV_rest _ j).2.2.2.2.1, (spliceOutV_rest t j).2.2.2.2.1]
  · rw [(spliceInV_rest _ j).2.2.2.2.2.1, (spliceOutV_rest t j).2.2.2.2.2.1]
  · -- hLen
    rw [spliceInV_hLen, hh, spliceOutV_hLen]
    by_cases hb : lget t.nHeader j < t.hLen.length
    · rw [lgetI_set_eq _ hb, List.set_set, sub_add_cancel]
      exact lsetI_self rfl
    · rw [List.set_eq_of_length_le (Nat.le_of_not_lt hb),
        List.set_eq_of_length_le (Nat.le_of_not_lt hb)]
  · rw [(spliceInV_rest _ j).2.2.2.2.2.2, (spliceOutV_rest t j).2.2.2.2.2.2]
  · -- nUp
    rw [spliceInV_nUp, hd, spliceOutV_nUp, List.set_set]
    exact lset_self h2
  · -- nDown
    rw [spliceInV_nDown, hu, spliceOutV_nDown, List.set_set]
    exact lset_self h1
  · rw [(spliceInV_rest _ j).1, (spliceOutV_rest t j).1]
  · rw [(spliceInV_rest _ j).2.1, (spliceOutV_rest t j).2.1]
  · rw [(spliceInV_rest _ j).2.2.1, (spliceOutV_rest t j).2.2.1]
  · rw [(spliceInV_rest _ j).2.2.2.1, (spliceOutV_rest t j).2.2.2.1]

/-- Splicing out `j` preserves the local coherence of every other coherent
node: `j`'s vertical neighbours are re-pointed at each other, and nobody
else's links mention `j`'s slot. -/
lemma pcond_preserved (t : St) (j j' : Nat) (hne : j' ≠ j)
    (hj : Pcond t j) (hj' : Pcond t j') : Pcond (spliceOutV t j) j' := by
  obtain ⟨hju, hjd, hub, hdb⟩ := hj
  obtain ⟨hju', hjd', hub', hdb'⟩ := hj'
  have hupval : lget (spliceOutV t j).nUp j' =
      if lget t.nDown j = j' then lget t.nUp j else lget t.nUp j' := by
    rw [spliceOutV_nUp]
    rcases eq_or_ne (lget t.nDown j) j' with he | hne2
    · rw [if_pos he, he, lget_set_eq _ (he ▸ hdb)]
    · rw [if_neg hne2, lget_set_ne _ hne2]
  have hdownval : lget (spliceOutV t j).nDown j' =
      if lget t.nUp j = j' then lget t.nDown j else lget t.nDown j' := by
    rw [spliceOutV_nDown]
    rcases eq_or_ne (lget t.nUp j) j' with he | hne2
    · rw [if_pos he, he, lget_set_eq _ (he ▸ hub)]
    · rw [if_neg hne2, lget_set_ne _ hne2]
  refine ⟨?_, ?_, ?_, ?_⟩
  · -- down (up j') = j'
    rw [hupval]
    rcases eq_or_ne (lget t.nDown j) j' with he | hne2
    · rw [if_pos he, spliceOutV_nDown, lget_set_eq _ hub]
      exact he
    · rw [if_neg hne2, spliceOutV_nDown]
      have hnu : lget t.nUp j ≠ lget t.nUp j' := by
        intro hequ
        exact hne (by rw [← hju', ← hequ, hju])
      rw [lget_set_ne _ hnu]
      exact hju'
  · -- up (down j') = j'
    rw [hdownval]
    rcases eq_or_ne (lget t.nUp j) j' with he | hne2
    · rw [if_pos he, spliceOutV_nUp, lget_set_eq _ hdb]
      exact he
    · rw [if_neg hne2, spliceOutV_nUp]
      have hnd : lget t.nDown j ≠ lget t.nDown j' := by
        intro heqd
        exact hne (by rw [← hjd', ← heqd, hjd])
      rw [lget_set_ne _ hnd]
      exact hjd'
  · rw [hupval, (spliceOutV_len t j).1]
    split
    · exact hub
    · exact hub'
  · rw [hdownval, (spliceOutV_len t j).2.1]
    split
    · exact hdb
    · exact hdb'

/-- Node coherence together with both vertical neighbours avoiding a fixed
set of ring nodes (the ring of the column being covered, whose traversal
must stay untouched). -/
def Qcond (ring : List Nat) (t : St) (j : Nat) : Prop :=
  Pcond t j ∧ lget t.nUp j ∉ ring ∧ lget t.nDown j ∉ ring

lemma qcond_preserved (ring : List Nat) (t : St) (j j' : Nat) (hne : j' ≠ j)
    (hj : Qcond ring t j) (hj' : Qcond ring t j') :
    Qcond ring (spliceOutV t j) j' := by
  obtain ⟨hpj, hju, hjd⟩ := hj
  obtain ⟨hpj', hju', hjd'⟩ := hj'
  refine ⟨pcond_preserved t j j' hne hpj hpj', ?_, ?_⟩
  · have hupval : lget (spliceOutV t j).nUp j' =
        if lget t.nDown j = j' then lget t.nUp j else lget t.nUp j' := by
      rw [spliceOutV_nUp]
      rcases eq_or_ne (lget t.nDown j) j' with he | hne2
      · rw [if_pos he, he, lget_set_eq _ (he ▸ hpj.2.2.2)]
      · rw [if_neg hne2, lget_set_ne _ hne2]
    rw [hupval]
    split
    · exact hju
    · exact hju'
  · have hdownval : lget (spliceOutV t j).nDown j' =
        if lget t.nUp j = j' then lget t.nDown j else lget t.nDown j' := by
      rw [spliceOutV_nDown]
      rcases eq_or_ne (lget t.nUp j) j' with he | hne2
      · rw [if_pos he, he, lget_set_eq _ (he ▸ hpj.2.2.1)]
      · rw [if_neg hne2, lget_set_ne _ hne2]
    rw [hdownval]
    split
    · exact hjd
    · exact hjd'

/-- Splicing out a node whose neighbours avoid `ring` does not change any
up/down link of a `ring` node. -/
lemma splice_ring_stable (ring : List Nat) (t : St) (j : Nat)
    (hj : Qcond ring t j) (x : Nat) (hx : x ∈ ring) :
    lget (spliceOutV t j).nDown x = lget t.nDown x ∧
      lget (spliceOutV t j).nUp x = lget t.nUp x := by
  obtain ⟨_, hju, hjd⟩ := hj
  constructor
  · rw [spliceOutV_nDown, lget_set_ne]
    intro he
    exact hju (he ▸ hx)
  · rw [spliceOutV_nUp, lget_set_ne]
    intro he
    exact hjd (he ▸ hx)

lemma foldOut_fields (l : List Nat) (t : St) :
    (l.foldl spliceOutV t).nLeft = t.nLeft ∧
    (l.foldl spliceOutV t).nRight = t.nRight ∧
    (l.foldl spliceOutV t).nHeader = t.nHeader ∧
    (l.foldl spliceOutV t).nRow = t.nRow ∧
    (l.foldl spliceOutV t).hPrev = t.hPrev ∧
    (l.foldl spliceOutV t).hNext = t.hNext ∧
    (l.foldl spliceOutV t).hHead = t.hHead ∧
    (l.foldl spliceOutV t).nDown.length = t.nDown.length ∧
    (l.foldl spliceOutV t).nUp.length = t.nUp.length ∧
    (l.foldl spliceOutV t).hLen.length = t.hLen.length := by
  induction l generalizing t with
  | nil => exact ⟨rfl, rfl, rfl, rfl, rfl, rfl, rfl, rfl, rfl, rfl⟩
  | cons j l' ih =>
    have h1 := ih (spliceOutV t j)
    have h2 := spliceOutV_rest t j
    have h3 := spliceOutV_len t j
    simp only [List.foldl_cons]
    exact ⟨h1.1.trans h2.1, h1.2.1.trans h2.2.1, h1.2.2.1.trans h2.2.2.1,
      h1.2.2.2.1.trans h2.2.2.2.1, h1.2.2.2.2.1.trans h2.2.2.2.2.1,
      h1.2.2.2.2.2.1.trans h2.2.2.2.2.2.1, h1.2.2.2.2.2.2.1.trans h2.2.2.2.2.2.2,
      h1.2.2.2.2.2.2.2.1.trans h3.1, h1.2.2.2.2.2.2.2.2.1.trans h3.2.1,
      h1.2.2.2.2.2.2.2.2.2.trans h3.2.2⟩

lemma foldIn_fields (l : List Nat) (t : St) :
    (l.foldl spliceInV t).nLeft = t.nLeft ∧
    (l.foldl spliceInV t).nRight = t.nRight ∧
    (l.foldl spliceInV t).nHeader = t.nHeader ∧
    (l.foldl spliceInV t).nRow = t.nRow ∧
    (l.foldl spliceInV t).hPrev = t.hPrev ∧
    (l.foldl spliceInV t).hNext = t.hNext ∧
    (l.foldl spliceInV t).hHead = t.hHead := by
  induction l generalizing t with
  | nil => exact ⟨rfl, rfl, rfl, rfl, rfl, rfl, rfl⟩
  | cons j l' ih =>
    have h1 := ih (spliceInV t j)
    have h2 := spliceInV_rest t j
    simp only [List.foldl_cons]
    exact ⟨h1.1.trans h2.1, h1.2.1.trans h2.2.1, h1.2.2.1.trans h2.2.2.1,
      h1.2.2.2.1.trans h2.2.2.2.1, h1.2.2.2.2.1.trans h2.2.2.2.2.1,
      h1.2.2.2.2.2.1.trans h2.2.2.2.2.2.1, h1.2.2.2.2.2.2.trans h2.2.2.2.2.2.2⟩

lemma foldOut_qcond (ring : List Nat) (l : List Nat) (t : St)
    (hl : ∀ j ∈ l, Qcond ring t j) (hnd : l.Nodup) (j' : Nat)
    (hj' : Qcond ring t j') (hmem : j' ∉ l) :
    Qcond ring (l.foldl spliceOutV t) j' := by
  induction l generalizing t with
  | nil => exact hj'
  | cons j l' ih =>
    simp only [List.foldl_cons]
    have hj := hl j (by simp)
    refine ih (spliceOutV t j) (fun x hx => ?_) (List.Nodup.of_cons hnd)
      (qcond_preserved ring t j j' (fun he => hmem (he ▸ List.mem_cons_self j l')) hj hj')
      (fun hx => hmem (List.mem_cons_of_mem j hx))
    exact qcond_preserved ring t j x
      (fun he => (List.nodup_cons.mp hnd).1 (he ▸ hx)) hj (hl x (List.mem_cons_of_mem j hx))

lemma foldOut_ring_stable (ring : List Nat) (l : List Nat) (t : St)
    (hl : ∀ j ∈ l, Qcond ring t j) (hnd : l.Nodup) (x : Nat) (hx : x ∈ ring) :
    lget (l.foldl spliceOutV t).nDown x = lget t.nDown x ∧
      lget (l.foldl spliceOutV t).nUp x = lget t.nUp x := by
  induction l generalizing t with
  | nil => exact ⟨rfl, rfl⟩
  | cons j l' ih =>
    simp only [List.foldl_cons]
    have hj := hl j (by simp)
    have hstep := splice_ring_stable ring t j hj x hx
    have hrest : ∀ j' ∈ l', Qcond ring (spliceOutV t j) j' := by
      intro j' hj'
      exact qcond_preserved ring t j j'
        (fun he => (List.nodup_cons.mp hnd).1 (he ▸ hj')) hj (hl j' (List.mem_cons_of_mem j hj'))
    have hih := ih (spliceOutV t j) hrest (List.Nodup.of_cons hnd)
    exact ⟨hih.1.trans hstep.1, hih.2.trans hstep.2⟩

lemma foldIn_foldOut (l : List Nat) (t : St) (hnd : l.Nodup)
    (hl : ∀ j ∈ l, Pcond t j) :
    l.reverse.foldl spliceInV (l.foldl spliceOutV t) = t := by
  induction l using List.reverseRecOn generalizing t with
  | nil => rfl
  | append_singleton l0 j ih =>
    rw [List.nodup_append] at hnd
    obtain ⟨hnd0, _, hdisj⟩ := hnd
    have hjmem : j ∉ l0 := fun hj => hdisj hj (by simp)
    have hpj : Pcond (l0.foldl spliceOutV t) j := by
      have : ∀ x ∈ l0, Qcond [] t x := fun x hx =>
        ⟨hl x (List.mem_append_left _ hx), by simp, by simp⟩
      exact (foldOut_qcond [] l0 t this hnd0 j
        ⟨hl j (by simp), by simp, by simp⟩ hjmem).1
    rw [List.foldl_append, List.reverse_append, List.reverse_singleton,
      List.singleton_append, List.foldl_cons]
    simp only [List.foldl_cons, List.foldl_nil]
    rw [spliceIn_spliceOut _ j hpj.1 hpj.2.1]
    exact ih t hnd0 (fun x hx => hl x (List.mem_append_left _ hx))

/-! ### Unrolling the cover/uncover loops -/

/-- The data nodes of column `c`'s vertical ring, top to bottom. -/
def colData (s : St) (c : Nat) : List Nat :=
  chase (lget s.nDown) (lget s.hHead c) s.nUp.length (lget s.hHead c)

/-- The headers in the root's horizontal ring (the live columns). -/
def ringHs (s : St) (root : Nat) : List Nat :=
  chase (lget s.hNext) root s.hNext.length root

/-- The row-mates of a node, walking right (the nodes `cover`'s inner loop
visits from a `rowNode`). -/
def rowSibs (s : St) (x : Nat) : List Nat :=
  chase (lget s.nRight) x s.nRight.length x

lemma coverColsLoop_unroll (A : St) (hd : Nat) (ring : List Nat) :
    ∀ (cdSuf : List Nat) (cur : Nat) (t : St) (fuel : Nat),
      t.nRight = A.nRight →
      (∀ x ∈ ring, lget t.nDown x = lget A.nDown x) →
      RingChain (lget A.nDown) cur cdSuf hd →
      hd ∉ cdSuf → cur ∈ ring → (∀ r ∈ cdSuf, r ∈ ring) →
      (∀ j ∈ cdSuf.flatMap (rowSibs A), Qcond ring t j) →
      (cdSuf.flatMap (rowSibs A)).Nodup →
      cdSuf.length < fuel →
      coverColsLoop fuel t hd cur =
        (cdSuf.flatMap (rowSibs A)).foldl spliceOutV t := by
  intro cdSuf
  induction cdSuf with
  | nil =>
    intro cur t fuel hR hstab hchain _ hcur _ _ _ hfuel
    cases fuel with
    | zero => exact absurd hfuel (Nat.not_lt_zero _)
    | succ fuel =>
      have hdown : lget t.nDown cur = hd := (hstab cur hcur).trans hchain
      have hstep : coverColsLoop (fuel + 1) t hd cur =
          if lget t.nDown cur = hd then t
          else coverColsLoop fuel (coverRowNodes t (lget t.nDown cur)) hd
            (lget t.nDown cur) := rfl
      rw [hstep, if_pos hdown]
      rfl
  | cons r rest ih =>
    intro cur t fuel hR hstab hchain hhd hcur hsub hQ hnd hfuel
    cases fuel with
    | zero => exact absurd hfuel (Nat.not_lt_zero _)
    | succ fuel =>
      have hdown : lget t.nDown cur = r := (hstab cur hcur).trans hchain.1
      have hrhd : ¬(r = hd) := fun he => hhd (he ▸ List.mem_cons_self r rest)
      have hsibnd : (rowSibs A r).Nodup ∧ (rest.flatMap (rowSibs A)).Nodup ∧
          (rowSibs A r).Disjoint (rest.flatMap (rowSibs A)) := by
        have : (r :: rest).flatMap (rowSibs A) =
            rowSibs A r ++ rest.flatMap (rowSibs A) := by
          simp [List.flatMap_cons]
        rw [this, List.nodup_append] at hnd
        exact hnd
      have hQr : ∀ j ∈ rowSibs A r, Qcond ring t j := fun j hj =>
        hQ j (by simp [List.flatMap_cons, hj])
      have hstep : coverColsLoop (fuel + 1) t hd cur =
          if lget t.nDown cur = hd then t
          else coverColsLoop fuel (coverRowNodes t (lget t.nDown cur)) hd
            (lget t.nDown cur) := rfl
      rw [hstep, hdown, if_neg hrhd]
      have hbody : coverRowNodes t r = (rowSibs A r).foldl spliceOutV t := by
        unfold coverRowNodes rowSibs
        rw [hR]
      rw [hbody]
      have hflat : (r :: rest).flatMap (rowSibs A) =
          rowSibs A r ++ rest.flatMap (rowSibs A) := by
        simp [List.flatMap_cons]
      rw [hflat, List.foldl_append]
      refine ih r ((rowSibs A r).foldl spliceOutV t) fuel ?_ ?_ hchain.2
        (fun hm => hhd (List.mem_cons_of_mem r hm)) (hsub r (by simp))
        (fun r' hr' => hsub r' (List.mem_cons_of_mem r hr')) ?_ hsibnd.2.1
        (Nat.lt_of_succ_lt_succ hfuel)
      · exact ((foldOut_fields _ _).2.1).trans hR
      · intro x hx
        exact ((foldOut_ring_stable ring (rowSibs A r) t hQr hsibnd.1 x hx).1).trans
          (hstab x hx)
      · intro j hj
        exact foldOut_qcond ring (rowSibs A r) t hQr hsibnd.1 j
          (hQ j (by rw [List.flatMap_cons]; exact List.mem_append_right _ hj))
          (fun hmem => hsibnd.2.2 hmem hj)

lemma uncoverColsLoop_unroll (A : St) (hd : Nat) (ring : List Nat)
    (hcoh : ∀ x ∈ ring, lget A.nUp (lget A.nDown x) = x)
    (hdring : hd ∈ ring) :
    ∀ (cdPre : List Nat) (cur fuel : Nat),
      RingChain (lget A.nDown) hd cdPre cur →
      cur ∈ ring → (∀ r ∈ cdPre, r ∈ ring) → hd ∉ cdPre →
      (∀ j ∈ cdPre.flatMap (rowSibs A), Qcond ring A j) →
      (cdPre.flatMap (rowSibs A)).Nodup →
      (∀ r ∈ cdPre,
        chase (lget A.nLeft) r A.nLeft.length r = (rowSibs A r).reverse) →
      cdPre.length < fuel →
      uncoverColsLoop fuel ((cdPre.flatMap (rowSibs A)).foldl spliceOutV A)
        hd cur = A := by
  intro cdPre
  induction cdPre using List.reverseRecOn with
  | nil =>
    intro cur fuel hchain hcur _ _ _ _ _ hfuel
    cases fuel with
    | zero => exact absurd hfuel (Nat.not_lt_zero _)
    | succ fuel =>
      have hup : lget A.nUp cur = hd := by
        have h1 : lget A.nDown hd = cur := hchain
        rw [← h1]
        exact hcoh hd hdring
      have hstep : uncoverColsLoop (fuel + 1) A hd cur =
          if lget A.nUp cur = hd then A
          else uncoverColsLoop fuel (uncoverRowNodes A (lget A.nUp cur)) hd
            (lget A.nUp cur) := rfl
      show uncoverColsLoop (fuel + 1) A hd cur = A
      rw [hstep, if_pos hup]
  | append_singleton cdPre' r ih =>
    intro cur fuel hchain hcur hsub hhd hQ hnd hrev hfuel
    cases fuel with
    | zero => exact absurd hfuel (Nat.not_lt_zero _)
    | succ fuel =>
      have hsplit := (ringChain_append (lget A.nDown) cdPre' hd r [] cur).mp hchain
      have hch1 : RingChain (lget A.nDown) hd cdPre' r := hsplit.1
      have hch2 : lget A.nDown r = cur := hsplit.2
      have hrring : r ∈ ring := hsub r (by simp)
      have hflat : (cdPre' ++ [r]).flatMap (rowSibs A) =
          cdPre'.flatMap (rowSibs A) ++ rowSibs A r := by
        simp [List.flatMap_append]
      have hnd' : (cdPre'.flatMap (rowSibs A)).Nodup ∧ (rowSibs A r).Nodup ∧
          (cdPre'.flatMap (rowSibs A)).Disjoint (rowSibs A r) := by
        rw [hflat, List.nodup_append] at hnd
        exact hnd
      have hQ' : ∀ j ∈ cdPre'.flatMap (rowSibs A), Qcond ring A j := fun j hj =>
        hQ j (by rw [hflat]; exact List.mem_append_left _ hj)
      have hQr : ∀ j ∈ rowSibs A r, Qcond ring A j := fun j hj =>
        hQ j (by rw [hflat]; exact List.mem_append_right _ hj)
      have hQfull : ∀ j ∈ (cdPre' ++ [r]).flatMap (rowSibs A), Qcond ring A j := hQ
      -- the state entering this loop step
      have hT : ((cdPre' ++ [r]).flatMap (rowSibs A)).foldl spliceOutV A =
          (rowSibs A r).foldl spliceOutV
            ((cdPre'.flatMap (rowSibs A)).foldl spliceOutV A) := by
        rw [hflat, List.foldl_append]
      set t' := (cdPre'.flatMap (rowSibs A)).foldl spliceOutV A with ht'
      set t := (rowSibs A r).foldl spliceOutV t' with ht
      have hup : lget t.nUp cur = r := by
        have hstab : lget t.nUp cur = lget A.nUp cur := by
          have := foldOut_ring_stable ring ((cdPre' ++ [r]).flatMap (rowSibs A)) A
            hQfull hnd cur hcur
          rw [hT] at this
          exact this.2
        rw [hstab, ← hch2]
        exact hcoh r hrring
      have hrhd : ¬(r = hd) := fun he => hhd (he ▸ by simp)
      have hstep : uncoverColsLoop (fuel + 1) t hd cur =
          if lget t.nUp cur = hd then t
          else uncoverColsLoop fuel (uncoverRowNodes t (lget t.nUp cur)) hd
            (lget t.nUp cur) := rfl
      rw [hT, hstep, hup, if_neg hrhd]
      have hPr : ∀ j ∈ rowSibs A r, Pcond t' j := by
        intro j hj
        exact (foldOut_qcond ring (cdPre'.flatMap (rowSibs A)) A hQ' hnd'.1 j
          (hQr j hj) (fun hmem => hnd'.2.2 hmem hj)).1
      have hbody : uncoverRowNodes t r = t' := by
        show (chase (lget t.nLeft) r t.nLeft.length r).foldl spliceInV t = t'
        have hL : t.nLeft = A.nLeft := by
          rw [ht, ht']
          exact ((foldOut_fields _ _).1).trans (foldOut_fields _ _).1
        rw [hL, hrev r (by simp), ht]
        exact foldIn_foldOut (rowSibs A r) t' hnd'.2.1 hPr
      rw [hbody]
      exact ih r fuel hch1 hrring (fun x hx => hsub x (List.mem_append_left _ hx))
        (fun hm => hhd (List.mem_append_left _ hm)) hQ' hnd'.1
        (fun x hx => hrev x (List.mem_append_left _ hx))
        (by
          have : cdPre'.length < cdPre'.length + 1 + 1 := by omega
          have h2 : (cdPre' ++ [r]).length = cdPre'.length + 1 := by simp
          omega)

lemma cover_eq (X : St) (c : Nat) :
    cover X c = coverColsLoop X.nUp.length
      { X with hPrev := X.hPrev.set (lget X.hNext c) (lget X.hPrev c),
               hNext := X.hNext.set
                 (lget (X.hPrev.set (lget X.hNext c) (lget X.hPrev c)) c)
                 (lget X.hNext c) }
      (lget X.hHead c) (lget X.hHead c) := rfl

lemma uncover_hPrev (X : St) (c : Nat) :
    (uncover X c).hPrev =
      (uncoverColsLoop X.nUp.length X (lget X.hHead c) (lget X.hHead c)).hPrev.set
        (lget (uncoverColsLoop X.nUp.length X (lget X.hHead c) (lget X.hHead c)).hNext c)
        c := rfl

lemma uncover_hNext (X : St) (c : Nat) :
    (uncover X c).hNext =
      (uncoverColsLoop X.nUp.length X (lget X.hHead c) (lget X.hHead c)).hNext.set
        (lget ((uncoverColsLoop X.nUp.length X (lget X.hHead c) (lget X.hHead c)).hPrev.set
          (lget (uncoverColsLoop X.nUp.length X (lget X.hHead c) (lget X.hHead c)).hNext c)
          c) c)
        c := rfl

lemma uncover_fields (X : St) (c : Nat) :
    (uncover X c).hLen =
      (uncoverColsLoop X.nUp.length X (lget X.hHead c) (lget X.hHead c)).hLen ∧
    (uncover X c).hHead =
      (uncoverColsLoop X.nUp.length X (lget X.hHead c) (lget X.hHead c)).hHead ∧
    (uncover X c).nUp =
      (uncoverColsLoop X.nUp.length X (lget X.hHead c) (lget X.hHead c)).nUp ∧
    (uncover X c).nDown =
      (uncoverColsLoop X.nUp.length X (lget X.hHead c) (lget X.hHead c)).nDown ∧
    (uncover X c).nLeft =
      (uncoverColsLoop X.nUp.length X (lget X.hHead c) (lget X.hHead c)).nLeft ∧
    (uncover X c).nRight =
      (uncoverColsLoop X.nUp.length X (lget X.hHead c) (lget X.hHead c)).nRight ∧
    (uncover X c).nHeader =
      (uncoverColsLoop X.nUp.length X (lget X.hHead c) (lget X.hHead c)).nHeader ∧
    (uncover X c).nRow =
      (uncoverColsLoop X.nUp.length X (lget X.hHead c) (lget X.hHead c)).nRow :=
  ⟨rfl, rfl, rfl, rfl, rfl, rfl, rfl, rfl⟩

/-- The heart of claim C6: covering a coherent live column and then
uncovering it restores the structure exactly. -/
lemma uncover_cover_core (s : St) (c : Nat)
    (hnx : lget s.hNext c ≠ c) (hpv : lget s.hPrev c ≠ c)
    (hcoh1 : lget s.hPrev (lget s.hNext c) = c)
    (hcoh2 : lget s.hNext (lget s.hPrev c) = c)
    (hclose : chaseCloses (lget s.nDown) (lget s.hHead c) s.nUp.length
      (lget s.hHead c) = true)
    (hvcoh : ∀ x ∈ lget s.hHead c :: colData s c,
      lget s.nUp (lget s.nDown x) = x)
    (hrev : ∀ r ∈ colData s c,
      chase (lget s.nLeft) r s.nLeft.length r = (rowSibs s r).reverse)
    (hQ : ∀ j ∈ (colData s c).flatMap (rowSibs s),
      Qcond (lget s.hHead c :: colData s c) s j)
    (hnd : ((colData s c).flatMap (rowSibs s)).Nodup)
    (hfuel : (colData s c).length < s.nUp.length) :
    uncover (cover s c) c = s := by
  have hchain0 := chain_of_chase (lget s.nDown) (lget s.hHead c) s.nUp.length
    (lget s.hHead c) hclose
  set A : St :=
    { s with hPrev := s.hPrev.set (lget s.hNext c) (lget s.hPrev c),
             hNext := s.hNext.set (lget s.hPrev c) (lget s.hNext c) } with hAdef
  have hcov : cover s c =
      ((colData s c).flatMap (rowSibs s)).foldl spliceOutV A := by
    rw [cover_eq]
    have hread : lget (s.hPrev.set (lget s.hNext c) (lget s.hPrev c)) c =
        lget s.hPrev c := lget_set_ne _ hnx
    rw [hread]
    exact coverColsLoop_unroll A (lget s.hHead c)
      (lget s.hHead c :: colData s c) (colData s c) (lget s.hHead c) A
      s.nUp.length rfl (fun x _ => rfl) hchain0.1 hchain0.2 (by simp)
      (fun r hr => List.mem_cons_of_mem _ hr) hQ hnd hfuel
  have hfl := foldOut_fields ((colData s c).flatMap (rowSibs s)) A
  have hTup : (cover s c).nUp.length = s.nUp.length := by
    rw [hcov]
    exact hfl.2.2.2.2.2.2.2.2.1
  have hTh : (cover s c).hHead = s.hHead := by
    rw [hcov]
    exact hfl.2.2.2.2.2.2.1
  have hloop : uncoverColsLoop (cover s c).nUp.length (cover s c)
      (lget (cover s c).hHead c) (lget (cover s c).hHead c) = A := by
    rw [hTup, hTh, hcov]
    exact uncoverColsLoop_unroll A (lget s.hHead c)
      (lget s.hHead c :: colData s c) hvcoh (by simp) (colData s c)
      (lget s.hHead c) s.nUp.length hchain0.1 (by simp)
      (fun r hr => List.mem_cons_of_mem _ hr) hchain0.2 hQ hnd hrev hfuel
  have hAnext : lget A.hNext c = lget s.hNext c := by
    rw [hAdef]
    exact lget_set_ne _ hpv
  ext : 1
  · rw [uncover_hPrev, hloop, hAnext]
    show (s.hPrev.set (lget s.hNext c) (lget s.hPrev c)).set (lget s.hNext c) c
      = s.hPrev
    rw [List.set_set]
    exact lset_self hcoh1
  · rw [uncover_hNext, hloop, hAnext]
    have hmid : lget ((s.hPrev.set (lget s.hNext c) (lget s.hPrev c)).set
        (lget s.hNext c) c) c = lget s.hPrev c := by
      rw [List.set_set, lget_set_ne _ hnx]
    show A.hNext.set (lget (A.hPrev.set (lget s.hNext c) c) c) c = s.hNext
    have hAprev : A.hPrev = s.hPrev.set (lget s.hNext c) (lget s.hPrev c) := rfl
    rw [hAprev, hmid]
    show (s.hNext.set (lget s.hPrev c) (lget s.hNext c)).set (lget s.hPrev c) c
      = s.hNext
    rw [List.set_set]
    exact lset_self hcoh2
  · rw [(uncover_fields _ c).1, hloop]
  · rw [(uncover_fields _ c).2.1, hloop]
  · rw [(uncover_fields _ c).2.2.1, hloop]
  · rw [(uncover_fields _ c).2.2.2.1, hloop]
  · rw [(uncover_fields _ c).2.2.2.2.1, hloop]
  · rw [(uncover_fields _ c).2.2.2.2.2.1, hloop]
  · rw [(uncover_fields _ c).2.2.2.2.2.2.1, hloop]
  · rw [(uncover_fields _ c).2.2.2.2.2.2.2, hloop]

lemma length_le_of_nodup_lt (l : List Nat) (N : Nat) (hnd : l.Nodup)
    (hlt : ∀ x ∈ l, x < N) : l.length ≤ N := by
  classical
  have h1 : l.toFinset.card = l.length := List.toFinset_card_of_nodup hnd
  have h2 : l.toFinset ⊆ Finset.range N := by
    intro x hx
    rw [List.mem_toFinset] at hx
    exact Finset.mem_range.mpr (hlt x hx)
  have h3 := Finset.card_le_card h2
  rw [h1, Finset.card_range] at h3
  exact h3

/-- The structural well-formedness invariant of the linked structure built
by `solve`: the header ring and every live column ring are closed,
duplicate-free, mutually coherent rings with matching `header` fields and
live sizes; every row ring is closed and coherent and meets each column at
most once; and every row-mate of a live node is itself live.  Covered
(detached) columns are exempt from the live clauses, exactly as the spec
freezes them. -/
structure Wf (s : St) (root : Nat) : Prop where
  szDown : s.nDown.length = s.nUp.length
  szLeft : s.nLeft.length = s.nUp.length
  szRight : s.nRight.length = s.nUp.length
  szHeader : s.nHeader.length = s.nUp.length
  szPrev : s.hPrev.length = s.hNext.length
  szLen : s.hLen.length = s.hNext.length
  szHead : s.hHead.length = s.hNext.length
  rootLt : root < s.hNext.length
  ringClose : chaseCloses (lget s.hNext) root s.hNext.length root = true
  ringNodup : (root :: ringHs s root).Nodup
  ringMem : ∀ h ∈ root :: ringHs s root, h < s.hNext.length
  ringCoh1 : ∀ h ∈ root :: ringHs s root, lget s.hPrev (lget s.hNext h) = h
  ringCoh2 : ∀ h ∈ root :: ringHs s root, lget s.hNext (lget s.hPrev h) = h
  headLt : ∀ h ∈ ringHs s root, lget s.hHead h < s.nUp.length
  colClose : ∀ h ∈ ringHs s root, chaseCloses (lget s.nDown) (lget s.hHead h)
    s.nUp.length (lget s.hHead h) = true
  colNodup : ∀ h ∈ ringHs s root, (lget s.hHead h :: colData s h).Nodup
  colMem : ∀ h ∈ ringHs s root, ∀ x ∈ lget s.hHead h :: colData s h,
    x < s.nUp.length
  colCoh1 : ∀ h ∈ ringHs s root, ∀ x ∈ lget s.hHead h :: colData s h,
    lget s.nUp (lget s.nDown x) = x
  colCoh2 : ∀ h ∈ ringHs s root, ∀ x ∈ lget s.hHead h :: colData s h,
    lget s.nDown (lget s.nUp x) = x
  colBnd : ∀ h ∈ ringHs s root, ∀ x ∈ lget s.hHead h :: colData s h,
    lget s.nUp x < s.nUp.length ∧ lget s.nDown x < s.nUp.length
  headMatch : ∀ h ∈ ringHs s root, lget s.nHeader (lget s.hHead h) = h
  colMatch : ∀ h ∈ ringHs s root, ∀ x ∈ colData s h, lget s.nHeader x = h
  colSize : ∀ h ∈ ringHs s root, lgetI s.hLen h = ((colData s h).length : Int)
  rowClose : ∀ x < s.nUp.length,
    chaseCloses (lget s.nRight) x s.nRight.length x = true
  rowNodup : ∀ x < s.nUp.length, (x :: rowSibs s x).Nodup
  rowMem : ∀ x < s.nUp.length, ∀ y ∈ rowSibs s x, y < s.nUp.length
  rowCoh : ∀ x < s.nUp.length, ∀ y ∈ x :: rowSibs s x,
    lget s.nLeft (lget s.nRight y) = y
  rowHdNodup : ∀ x < s.nUp.length,
    ((x :: rowSibs s x).map (lget s.nHeader)).Nodup
  crossLive : ∀ h ∈ ringHs s root, ∀ x ∈ colData s h, ∀ y ∈ rowSibs s x,
    lget s.nHeader y ∈ ringHs s root ∧ y ∈ colData s (lget s.nHeader y)

/-- Row rings are symmetric: if `j` is a row-mate of `x` then `x` is a
row-mate of `j`, and their rings carry the same node set. -/
lemma mem_rowSibs_symm (s : St) (x j : Nat)
    (hclose : chaseCloses (lget s.nRight) x s.nRight.length x = true)
    (hnd : (x :: rowSibs s x).Nodup)
    (hbnd : ∀ y ∈ x :: rowSibs s x, y < s.nRight.length)
    (hj : j ∈ rowSibs s x) :
    x ∈ rowSibs s j ∧ ∀ z, z ∈ x :: rowSibs s x ↔ z ∈ j :: rowSibs s j := by
  obtain ⟨hchain, _⟩ := chain_of_chase (lget s.nRight) x s.nRight.length x hclose
  obtain ⟨u, v, he⟩ := List.append_of_mem hj
  rw [show rowSibs s x = chase (lget s.nRight) x s.nRight.length x from rfl] at he
  rw [he] at hchain
  obtain ⟨hrot, hperm⟩ := ring_rotate (lget s.nRight) x j u v hchain
  have hndrot : (j :: (v ++ x :: u)).Nodup := hperm.nodup_iff.mp (by
    rw [show rowSibs s x = chase (lget s.nRight) x s.nRight.length x from rfl,
      he] at hnd
    exact hnd)
  have hlen : (v ++ x :: u).length < s.nRight.length := by
    have h1 : (j :: (v ++ x :: u)).length ≤ s.nRight.length := by
      refine length_le_of_nodup_lt _ _ hndrot ?_
      intro z hz
      refine hbnd z ?_
      rw [show rowSibs s x = chase (lget s.nRight) x s.nRight.length x from rfl,
        he]
      exact (hperm.mem_iff).mpr hz
    simpa using h1
  have hchase : chase (lget s.nRight) j s.nRight.length j = v ++ x :: u :=
    chase_of_chain (lget s.nRight) j (v ++ x :: u) j s.nRight.length hrot
      (List.nodup_cons.mp hndrot).1 hlen
  have hsibs : rowSibs s j = v ++ x :: u := hchase
  constructor
  · rw [hsibs]
    simp
  · intro z
    rw [show rowSibs s x = chase (lget s.nRight) x s.nRight.length x from rfl,
      he, hsibs]
    exact ⟨fun hz => (hperm.mem_iff).mp hz, fun hz => (hperm.mem_iff).mpr hz⟩

lemma wf_hnx (s : St) (root c : Nat) (hw : Wf s root) (hc : c ∈ ringHs s root) :
    lget s.hNext c ≠ c := by
  obtain ⟨hchain, hroot⟩ := chain_of_chase (lget s.hNext) root s.hNext.length
    root hw.ringClose
  intro he
  obtain ⟨u, v, hdecomp⟩ := List.append_of_mem hc
  have hchain' : RingChain (lget s.hNext) root (u ++ c :: v) root := by
    rw [← hdecomp]
    exact hchain
  have hsplit := (ringChain_append _ u root c v root).mp hchain'
  cases v with
  | nil =>
    have hcr : c = root := by
      have : lget s.hNext c = root := hsplit.2
      rw [he] at this
      exact this
    have : root ∉ ringHs s root := hroot
    rw [hdecomp, ← hcr] at this
    exact this (by simp)
  | cons w v' =>
    have hfw : c = w := by
      have : lget s.hNext c = w := hsplit.2.1
      rw [he] at this
      exact this
    have hnd : (ringHs s root).Nodup := hw.ringNodup.of_cons
    rw [hdecomp] at hnd
    have hnd2 := hnd.of_append_right
    rw [← hfw] at hnd2
    exact (List.nodup_cons.mp hnd2).1 (by simp)

lemma wf_hpv (s : St) (root c : Nat) (hw : Wf s root) (hc : c ∈ ringHs s root) :
    lget s.hPrev c ≠ c := by
  obtain ⟨hchain, _⟩ := chain_of_chase (lget s.hNext) root s.hNext.length
    root hw.ringClose
  obtain ⟨y, hy, hfy⟩ := chain_pred_ring (lget s.hNext) (ringHs s root) root
    hchain c (List.mem_cons_of_mem root hc)
  have hyprev : lget s.hPrev c = y := by
    rw [← hfy]
    exact hw.ringCoh1 y hy
  rw [hyprev]
  intro he
  rw [he] at hfy
  exact wf_hnx s root c hw hc hfy

lemma wf_rowrev (s : St) (root : Nat) (hw : Wf s root) (x : Nat)
    (hx : x < s.nUp.length) :
    chase (lget s.nLeft) x s.nLeft.length x = (rowSibs s x).reverse := by
  obtain ⟨hchain, hnot⟩ := chain_of_chase (lget s.nRight) x s.nRight.length x
    (hw.rowClose x hx)
  have hrevc : RingChain (lget s.nLeft) x (rowSibs s x).reverse x :=
    chain_reverse _ _ _ x x hchain (hw.rowCoh x hx)
  refine chase_of_chain _ _ _ _ _ hrevc (by simpa using hnot) ?_
  have h1 : (x :: rowSibs s x).length ≤ s.nUp.length := by
    refine length_le_of_nodup_lt _ _ (hw.rowNodup x hx) ?_
    intro z hz
    rcases List.mem_cons.mp hz with rfl | hz
    · exact hx
    · exact hw.rowMem x hx z hz
  rw [hw.szLeft, List.length_reverse]
  simp only [List.length_cons] at h1
  omega

lemma wf_qcond (s : St) (root c : Nat) (hw : Wf s root) (hc : c ∈ ringHs s root) :
    ∀ j ∈ (colData s c).flatMap (rowSibs s),
      Qcond (lget s.hHead c :: colData s c) s j := by
  intro j hj
  rw [List.mem_flatMap] at hj
  obtain ⟨x, hx, hjx⟩ := hj
  have hxN : x < s.nUp.length := hw.colMem c hc x (List.mem_cons_of_mem _ hx)
  obtain ⟨hhd, hxcol⟩ := hw.crossLive c hc x hx j hjx
  have hago : lget s.nHeader x = c := hw.colMatch c hc x hx
  have hne : lget s.nHeader j ≠ c := by
    intro he
    have hmapnd := hw.rowHdNodup x hxN
    rw [List.map_cons, List.nodup_cons] at hmapnd
    exact hmapnd.1 (List.mem_map.mpr ⟨j, hjx, by rw [he, hago]⟩)
  have hPj : Pcond s j := by
    refine ⟨hw.colCoh2 _ hhd j (List.mem_cons_of_mem _ hxcol),
      hw.colCoh1 _ hhd j (List.mem_cons_of_mem _ hxcol), ?_, ?_⟩
    · rw [hw.szDown]
      exact (hw.colBnd _ hhd j (List.mem_cons_of_mem _ hxcol)).1
    · exact (hw.colBnd _ hhd j (List.mem_cons_of_mem _ hxcol)).2
  have hchainh := chain_of_chase (lget s.nDown) (lget s.hHead (lget s.nHeader j))
    s.nUp.length (lget s.hHead (lget s.nHeader j)) (hw.colClose _ hhd)
  have hupmem : lget s.nUp j ∈
      lget s.hHead (lget s.nHeader j) :: colData s (lget s.nHeader j) :=
    ring_g_mem (lget s.nDown) (lget s.nUp) _ _ hchainh.1 (hw.colCoh1 _ hhd) j
      (List.mem_cons_of_mem _ hxcol)
  have hdnmem : lget s.nDown j ∈
      lget s.hHead (lget s.nHeader j) :: colData s (lget s.nHeader j) :=
    ring_f_mem (lget s.nDown) _ _ hchainh.1 j (List.mem_cons_of_mem _ hxcol)
  have hdisj : ∀ z ∈ lget s.hHead (lget s.nHeader j) ::
      colData s (lget s.nHeader j), z ∉ lget s.hHead c :: colData s c := by
    intro z hz hzc
    have h1 : lget s.nHeader z = lget s.nHeader j := by
      rcases List.mem_cons.mp hz with rfl | hz2
      · exact hw.headMatch _ hhd
      · exact hw.colMatch _ hhd z hz2
    have h2 : lget s.nHeader z = c := by
      rcases List.mem_cons.mp hzc with rfl | hz2
      · exact hw.headMatch c hc
      · exact hw.colMatch c hc z hz2
    exact hne (h1 ▸ h2)
  exact ⟨hPj, hdisj _ hupmem, hdisj _ hdnmem⟩

lemma wf_sibs_bnd (s : St) (root : Nat) (hw : Wf s root) (x : Nat)
    (hx : x < s.nUp.length) :
    ∀ y ∈ x :: rowSibs s x, y < s.nRight.length := by
  intro y hy
  rw [hw.szRight]
  rcases List.mem_cons.mp hy with rfl | hy
  · exact hx
  · exact hw.rowMem x hx y hy

lemma wf_flat_nodup (s : St) (root c : Nat) (hw : Wf s root)
    (hc : c ∈ ringHs s root) :
    ((colData s c).flatMap (rowSibs s)).Nodup := by
  rw [List.nodup_flatMap]
  constructor
  · intro x hx
    exact (hw.rowNodup x (hw.colMem c hc x (List.mem_cons_of_mem _ hx))).of_cons
  · have hcdnd : (colData s c).Nodup := (hw.colNodup c hc).of_cons
    refine hcdnd.pairwise_of_forall_ne ?_
    intro x1 hx1 x2 hx2 hne j hj1 hj2
    have hx1N : x1 < s.nUp.length := hw.colMem c hc x1 (List.mem_cons_of_mem _ hx1)
    have hx2N : x2 < s.nUp.length := hw.colMem c hc x2 (List.mem_cons_of_mem _ hx2)
    have hjN : j < s.nUp.length := hw.rowMem x1 hx1N j hj1
    have hs1 := mem_rowSibs_symm s x1 j (hw.rowClose x1 hx1N) (hw.rowNodup x1 hx1N)
      (wf_sibs_bnd s root hw x1 hx1N) hj1
    have hs2 := mem_rowSibs_symm s x2 j (hw.rowClose x2 hx2N) (hw.rowNodup x2 hx2N)
      (wf_sibs_bnd s root hw x2 hx2N) hj2
    have hmapnd := hw.rowHdNodup j hjN
    have hinj := List.inj_on_of_nodup_map hmapnd
    refine hne (hinj (List.mem_cons_of_mem _ hs1.1) (List.mem_cons_of_mem _ hs2.1) ?_)
    rw [hw.colMatch c hc x1 hx1, hw.colMatch c hc x2 hx2]

lemma wf_hfuel (s : St) (root c : Nat) (hw : Wf s root)
    (hc : c ∈ ringHs s root) :
    (colData s c).length < s.nUp.length := by
  have h1 : (lget s.hHead c :: colData s c).length ≤ s.nUp.length :=
    length_le_of_nodup_lt _ _ (hw.colNodup c hc) (hw.colMem c hc)
  simp only [List.length_cons] at h1
  omega

/-- C6: on a well-formed linked structure, `cover(column)` followed by
`uncover(column)` on a column currently linked into the header ring
restores every `up`/`down`/`left`/`right`/`prev`/`next` link and every
column size exactly: the two operations compose to the identity on the
whole state. -/
theorem cover_uncover_restores (s : St) (root c : Nat)
    (hw : Wf s root) (hc : c ∈ ringHs s root) :
    uncover (cover s c) c = s :=
  uncover_cover_core s c (wf_hnx s root c hw hc) (wf_hpv s root c hw hc)
    (hw.ringCoh1 c (List.mem_cons_of_mem root hc))
    (hw.ringCoh2 c (List.mem_cons_of_mem root hc))
    (hw.colClose c hc) (hw.colCoh1 c hc)
    (fun r hr => wf_rowrev s root hw r
      (hw.colMem c hc r (List.mem_cons_of_mem _ hr)))
    (wf_qcond s root c hw hc) (wf_flat_nodup s root c hw hc)
    (wf_hfuel s root c hw hc)

/-- The structure `solve` builds for the matrix `[[1]]`. -/
def stB1 : St :=
  ⟨[1, 0], [1, 0], [1, 0], [0, 0], [1, 0], [1, 0], [0, 1], [0, 1], [0, 0],
    [0, 0]⟩

theorem cover_uncover_restores_witness : uncover (cover stB1 0) 0 = stB1 :=
  cover_uncover_restores stB1 1 0 (by constructor <;> decide) (by decide)

/-! ### Shrinking a ring by one splice

Generic description of what one splice does to the ring it lives in: the
spliced element disappears from the traversal and coherence survives for
the remaining members.  This is used both for the header ring (when
`cover` detaches a column) and for each vertical ring (when a row node is
spliced out). -/

lemma ringChain_congr (f f' : Nat → Nat) :
    ∀ (l : List Nat) (a b : Nat), (∀ x ∈ a :: l, f' x = f x) →
      RingChain f a l b → RingChain f' a l b := by
  intro l
  induction l with
  | nil =>
    intro a b hag h
    show f' a = b
    rw [hag a (by simp)]
    exact h
  | cons x xs ih =>
    intro a b hag h
    exact ⟨by rw [hag a (by simp)]; exact h.1,
      ih x b (fun y hy => hag y (List.mem_cons_of_mem a hy)) h.2⟩

lemma ring_coh_flip (f g : Nat → Nat) (l : List Nat) (a : Nat)
    (hchain : RingChain f a l a) (hcoh : ∀ x ∈ a :: l, g (f x) = x) :
    ∀ x ∈ a :: l, f (g x) = x := by
  intro x hx
  obtain ⟨y, hy, hfy⟩ := chain_pred_ring f l a hchain x hx
  have hgx : g x = y := by rw [← hfy, hcoh y hy]
  rw [hgx, hfy]

lemma ring_erase_chain (f g f' : Nat → Nat) (a e : Nat) (u v : List Nat)
    (hchain : RingChain f a (u ++ e :: v) a)
    (hnd : (a :: (u ++ e :: v)).Nodup)
    (hcoh : ∀ x ∈ a :: (u ++ e :: v), g (f x) = x)
    (hf' : ∀ x ∈ a :: (u ++ e :: v), f' x = if x = g e then f e else f x) :
    RingChain f' a (u ++ v) a := by
  have hsplit := (ringChain_append f u a e v a).mp hchain
  rcases List.eq_nil_or_concat u with rfl | ⟨u2, z, rfl⟩
  · -- predecessor of e is a
    have hge : g e = a := by
      have hfa : f a = e := hsplit.1
      rw [← hfa, hcoh a (by simp)]
    cases v with
    | nil =>
      have hfe : f e = a := hsplit.2
      show f' a = a
      rw [hf' a (by simp), if_pos hge.symm, hfe]
    | cons w v' =>
      have hfe : f e = w := hsplit.2.1
      refine ⟨?_, ?_⟩
      · rw [hf' a (by simp), if_pos hge.symm, hfe]
      · refine ringChain_congr f f' v' w a ?_ hsplit.2.2
        intro x hx
        rw [hf' x (by simp [hx]), if_neg]
        intro he2
        rw [hge] at he2
        have : a ∈ w :: v' := he2 ▸ hx
        exact (List.nodup_cons.mp hnd).1 (by simp [this])
  · -- predecessor of e is z, the last element of u
    simp only [List.concat_eq_append] at hchain hnd hcoh hf' hsplit ⊢
    have hsplitz := (ringChain_append f u2 a z (e :: v) a).mp (by
      have h0 : u2 ++ [z] ++ e :: v = u2 ++ z :: (e :: v) := by simp
      rw [h0] at hchain
      exact hchain)
    have hfz : f z = e := hsplitz.2.1
    have hge : g e = z := by
      rw [← hfz, hcoh z (by simp)]
    have hznotu2 : z ∉ a :: u2 := by
      have h1 : (a :: (u2 ++ [z] ++ e :: v)).Nodup := hnd
      have h2 : a :: (u2 ++ [z] ++ e :: v) = (a :: u2) ++ z :: (e :: v) := by simp
      rw [h2, List.nodup_append] at h1
      intro hz
      exact h1.2.2 hz (by simp)
    have hchainu2 : RingChain f' a u2 z := by
      refine ringChain_congr f f' u2 a z ?_ hsplitz.1
      intro x hx
      rw [hf' x (by
        rcases List.mem_cons.mp hx with rfl | hx2
        · simp
        · simp [hx2]), if_neg]
      intro he2
      rw [hge] at he2
      exact hznotu2 (he2 ▸ hx)
    cases v with
    | nil =>
      have hfe : f e = a := hsplit.2
      have h0 : u2 ++ [z] ++ ([] : List Nat) = u2 ++ z :: [] := by simp
      rw [h0]
      refine (ringChain_append f' u2 a z [] a).mpr ⟨hchainu2, ?_⟩
      show f' z = a
      rw [hf' z (by simp), if_pos hge.symm, hfe]
    | cons w v' =>
      have hfe : f e = w := hsplit.2.1
      have h0 : u2 ++ [z] ++ (w :: v') = u2 ++ z :: (w :: v') := by simp
      rw [h0]
      refine (ringChain_append f' u2 a z (w :: v') a).mpr ⟨hchainu2, ?_, ?_⟩
      · rw [hf' z (by simp), if_pos hge.symm, hfe]
      · refine ringChain_congr f f' v' w a ?_ hsplit.2.2
        intro x hx
        rw [hf' x (by simp [hx]), if_neg]
        intro he2
        rw [hge] at he2
        have h1 : a :: (u2 ++ [z] ++ e :: (w :: v')) =
            (a :: (u2 ++ [z] ++ [e])) ++ (w :: v') := by simp
        rw [h1, List.nodup_append] at hnd
        exact hnd.2.2 (by simp) (he2 ▸ hx)

lemma ring_erase_coh (f g f' g' : Nat → Nat) (a e : Nat) (l : List Nat)
    (hchain : RingChain f a l a) (hnd : (a :: l).Nodup)
    (hcoh : ∀ x ∈ a :: l, g (f x) = x)
    (he : e ∈ l)
    (hf' : ∀ x ∈ a :: l, f' x = if x = g e then f e else f x)
    (hg' : ∀ x ∈ a :: l, g' x = if x = f e then g e else g x) :
    ∀ x ∈ a :: l.erase e, g' (f' x) = x ∧ f' (g' x) = x := by
  have hcoh2 := ring_coh_flip f g l a hchain hcoh
  have hfm := ring_f_mem f l a hchain
  have hgm := ring_g_mem f g l a hchain hcoh
  have hem : e ∈ a :: l := List.mem_cons_of_mem a he
  intro x hx
  have hxm : x ∈ a :: l := by
    rcases List.mem_cons.mp hx with rfl | hx2
    · simp
    · exact List.mem_cons_of_mem a (List.mem_of_mem_erase hx2)
  have hxe : x ≠ e := by
    intro he2
    subst he2
    rcases List.mem_cons.mp hx with he3 | hx2
    · exact (List.nodup_cons.mp hnd).1 (he3 ▸ he)
    · exact (List.Nodup.not_mem_erase (List.nodup_cons.mp hnd).2) hx2
  constructor
  · rcases eq_or_ne x (g e) with hxge | hxge
    · rw [hf' x hxm, if_pos hxge, hg' (f e) (hfm e hem), if_pos rfl, ← hxge]
    · rw [hf' x hxm, if_neg hxge, hg' (f x) (hfm x hxm)]
      rcases eq_or_ne (f x) (f e) with hfx | hfx
      · exfalso
        apply hxe
        rw [← hcoh x hxm, hfx, hcoh e hem]
      · rw [if_neg hfx]
        exact hcoh x hxm
  · rcases eq_or_ne x (f e) with hxfe | hxfe
    · rw [hg' x hxm, if_pos hxfe, hf' (g e) (hgm e hem), if_pos rfl, ← hxfe]
    · rw [hg' x hxm, if_neg hxfe, hf' (g x) (hgm x hxm)]
      rcases eq_or_ne (g x) (g e) with hgx | hgx
      · exfalso
        apply hxe
        rw [← hcoh2 x hxm, hgx, hcoh2 e hem]
      · rw [if_neg hgx]
        exact hcoh2 x hxm

/-- The well-formedness bundle of one column's vertical ring. -/
def ColWf (t : St) (h : Nat) : Prop :=
  chaseCloses (lget t.nDown) (lget t.hHead h) t.nUp.length (lget t.hHead h)
    = true ∧
  (lget t.hHead h :: colData t h).Nodup ∧
  (∀ x ∈ lget t.hHead h :: colData t h,
    x < t.nUp.length ∧ lget t.nUp x < t.nUp.length ∧
    lget t.nDown x < t.nUp.length ∧
    lget t.nUp (lget t.nDown x) = x ∧ lget t.nDown (lget t.nUp x) = x) ∧
  lget t.nHeader (lget t.hHead h) = h ∧
  (∀ x ∈ colData t h, lget t.nHeader x = h) ∧
  lgetI t.hLen h = ((colData t h).length : Int)

/-- Splicing a node out of its column shrinks that column's ring by
exactly that node and keeps the bundle. -/
lemma spliceOut_colWf (t : St) (j h : Nat) (hhj : lget t.nHeader j = h)
    (hcw : ColWf t h) (hj : j ∈ colData t h)
    (hlen : t.nDown.length = t.nUp.length) (hLlen : h < t.hLen.length) :
    ColWf (spliceOutV t j) h ∧
      colData (spliceOutV t j) h = (colData t h).erase j := by
  obtain ⟨hcl, hnd, hbnd, hhm, hcm, hsz⟩ := hcw
  obtain ⟨hch, hnmem⟩ := chain_of_chase (lget t.nDown) (lget t.hHead h)
    t.nUp.length (lget t.hHead h) hcl
  have hjm : j ∈ lget t.hHead h :: colData t h := List.mem_cons_of_mem _ hj
  have hcoh : ∀ x ∈ lget t.hHead h :: colData t h,
      lget t.nUp (lget t.nDown x) = x := fun x hx => (hbnd x hx).2.2.2.1
  have hf' : ∀ x ∈ lget t.hHead h :: colData t h,
      lget (spliceOutV t j).nDown x =
        if x = lget t.nUp j then lget t.nDown j else lget t.nDown x := by
    intro x _
    rw [spliceOutV_nDown]
    rcases eq_or_ne x (lget t.nUp j) with rfl | hne
    · rw [if_pos rfl, lget_set_eq]
      rw [hlen]
      exact (hbnd j hjm).2.1
    · rw [if_neg hne, lget_set_ne _ (fun he => hne he.symm)]
  have hg' : ∀ x ∈ lget t.hHead h :: colData t h,
      lget (spliceOutV t j).nUp x =
        if x = lget t.nDown j then lget t.nUp j else lget t.nUp x := by
    intro x _
    rw [spliceOutV_nUp]
    rcases eq_or_ne x (lget t.nDown j) with rfl | hne
    · rw [if_pos rfl, lget_set_eq]
      exact (hbnd j hjm).2.2.1
    · rw [if_neg hne, lget_set_ne _ (fun he => hne he.symm)]
  obtain ⟨u, v, hdec⟩ := List.append_of_mem hj
  have hjnotu : j ∉ u := by
    have hnd2 : (colData t h).Nodup := hnd.of_cons
    rw [hdec, List.nodup_append] at hnd2
    intro hju
    exact hnd2.2.2 hju (by simp)
  have herase : (colData t h).erase j = u ++ v := by
    rw [hdec, List.erase_append_right _ hjnotu, List.erase_cons_head]
  have hchain' : RingChain (lget (spliceOutV t j).nDown) (lget t.hHead h)
      (u ++ v) (lget t.hHead h) := by
    refine ring_erase_chain (lget t.nDown) (lget t.nUp)
      (lget (spliceOutV t j).nDown) (lget t.hHead h) j u v ?_ ?_ ?_ ?_
    · rw [← hdec]; exact hch
    · rw [← hdec]; exact hnd
    · rw [← hdec]; exact hcoh
    · rw [← hdec]; exact hf'
  have hbig : (lget t.hHead h :: colData t h).length ≤ t.nUp.length :=
    length_le_of_nodup_lt _ _ hnd (fun x hx => (hbnd x hx).1)
  have hlenD : (u ++ v).length < t.nUp.length := by
    have h1 : (u ++ v).length + 1 = (colData t h).length := by
      rw [hdec]
      simp
      omega
    simp only [List.length_cons] at hbig
    omega
  have hhdnot : lget t.hHead h ∉ u ++ v := by
    intro hm
    have hgoal : lget t.hHead h ∈ colData t h := by
      rw [hdec]
      rcases List.mem_append.mp hm with hm2 | hm2
      · exact List.mem_append_left _ hm2
      · exact List.mem_append_right _ (List.mem_cons_of_mem _ hm2)
    exact hnmem hgoal
  have hDnew : colData (spliceOutV t j) h = u ++ v := by
    show chase (lget (spliceOutV t j).nDown) (lget (spliceOutV t j).hHead h)
      (spliceOutV t j).nUp.length (lget (spliceOutV t j).hHead h) = u ++ v
    have h1 : (spliceOutV t j).hHead = t.hHead := (spliceOutV_rest t j).2.2.2.2.2.2
    have h2 : (spliceOutV t j).nUp.length = t.nUp.length := (spliceOutV_len t j).2.1
    rw [h1, h2]
    exact chase_of_chain _ _ _ _ _ hchain' hhdnot hlenD
  have hcohE := ring_erase_coh (lget t.nDown) (lget t.nUp)
    (lget (spliceOutV t j).nDown) (lget (spliceOutV t j).nUp) (lget t.hHead h)
    j (colData t h) hch hnd hcoh hj hf' hg'
  have hsubE : ∀ x ∈ lget t.hHead h :: (colData t h).erase j,
      x ∈ lget t.hHead h :: colData t h := by
    intro x hx
    rcases List.mem_cons.mp hx with rfl | hx
    · simp
    · exact List.mem_cons_of_mem _ (List.mem_of_mem_erase hx)
  refine ⟨⟨?_, ?_, ?_, ?_, ?_, ?_⟩, by rw [hDnew, herase]⟩
  · have h1 : (spliceOutV t j).hHead = t.hHead := (spliceOutV_rest t j).2.2.2.2.2.2
    have h2 : (spliceOutV t j).nUp.length = t.nUp.length := (spliceOutV_len t j).2.1
    rw [h1, h2]
    exact chaseCloses_of_chain _ _ _ _ _ hchain' hhdnot hlenD
  · have h1 : (spliceOutV t j).hHead = t.hHead := (spliceOutV_rest t j).2.2.2.2.2.2
    rw [h1, hDnew, ← herase]
    refine List.nodup_cons.mpr ⟨?_, hnd.of_cons.erase j⟩
    intro hm
    exact (List.nodup_cons.mp hnd).1 (List.mem_of_mem_erase hm)
  · have h1 : (spliceOutV t j).hHead = t.hHead := (spliceOutV_rest t j).2.2.2.2.2.2
    have h2 : (spliceOutV t j).nUp.length = t.nUp.length := (spliceOutV_len t j).2.1
    rw [h1, h2, hDnew, ← herase]
    intro x hx
    have hxm := hsubE x hx
    have hxcoh := hcohE x hx
    refine ⟨(hbnd x hxm).1, ?_, ?_, hxcoh.1, hxcoh.2⟩
    · rw [hg' x hxm]
      split
      · exact (hbnd j hjm).2.1
      · exact (hbnd x hxm).2.1
    · rw [hf' x hxm]
      split
      · exact (hbnd j hjm).2.2.1
      · exact (hbnd x hxm).2.2.1
  · have h1 : (spliceOutV t j).hHead = t.hHead := (spliceOutV_rest t j).2.2.2.2.2.2
    have h3 : (spliceOutV t j).nHeader = t.nHeader := (spliceOutV_rest t j).2.2.1
    rw [h1, h3]
    exact hhm
  · have h3 : (spliceOutV t j).nHeader = t.nHeader := (spliceOutV_rest t j).2.2.1
    rw [h3, hDnew, ← herase]
    intro x hx
    exact hcm x (List.mem_of_mem_erase hx)
  · have hji : lgetI (spliceOutV t j).hLen h = lgetI t.hLen h - 1 := by
      rw [spliceOutV_hLen, hhj, lgetI_set_eq _ hLlen]
    rw [hji, hDnew, ← herase, hsz, List.length_erase_of_mem hj,
      Nat.cast_sub (by
        rcases List.eq_nil_or_concat (colData t h) with he | _
        · rw [he] at hj; simp at hj
        · have : 0 < (colData t h).length := List.length_pos.mpr (by
            intro he2; rw [he2] at hj; simp at hj)
          omega)]
    simp

/-- Splicing out a node leaves every column disjoint from its neighbours
(in particular every other live column) completely unchanged. -/
lemma spliceOut_other_col (t : St) (j g : Nat) (hcwg : ColWf t g)
    (hdisU : lget t.nUp j ∉ lget t.hHead g :: colData t g)
    (hdisD : lget t.nDown j ∉ lget t.hHead g :: colData t g)
    (hgne : g ≠ lget t.nHeader j) :
    ColWf (spliceOutV t j) g ∧ colData (spliceOutV t j) g = colData t g := by
  obtain ⟨hcl, hnd, hbnd, hhm, hcm, hsz⟩ := hcwg
  obtain ⟨hch, hnmem⟩ := chain_of_chase (lget t.nDown) (lget t.hHead g)
    t.nUp.length (lget t.hHead g) hcl
  have hagD : ∀ x ∈ lget t.hHead g :: colData t g,
      lget (spliceOutV t j).nDown x = lget t.nDown x := by
    intro x hx
    rw [spliceOutV_nDown, lget_set_ne]
    intro he
    exact hdisU (he ▸ hx)
  have hagU : ∀ x ∈ lget t.hHead g :: colData t g,
      lget (spliceOutV t j).nUp x = lget t.nUp x := by
    intro x hx
    rw [spliceOutV_nUp, lget_set_ne]
    intro he
    exact hdisD (he ▸ hx)
  have hcoh : ∀ x ∈ lget t.hHead g :: colData t g,
      lget t.nUp (lget t.nDown x) = x := fun x hx => (hbnd x hx).2.2.2.1
  have hfm := ring_f_mem (lget t.nDown) (colData t g) (lget t.hHead g) hch
  have hgm := ring_g_mem (lget t.nDown) (lget t.nUp) (colData t g)
    (lget t.hHead g) hch hcoh
  have hDeq : colData (spliceOutV t j) g = colData t g := by
    show chase (lget (spliceOutV t j).nDown) (lget (spliceOutV t j).hHead g)
      (spliceOutV t j).nUp.length (lget (spliceOutV t j).hHead g) = colData t g
    rw [(spliceOutV_rest t j).2.2.2.2.2.2, (spliceOutV_len t j).2.1]
    exact chase_congr (lget t.nDown) (lget (spliceOutV t j).nDown)
      (lget t.hHead g) t.nUp.length (lget t.hHead g) hagD
  have hlenD : (colData t g).length < t.nUp.length := by
    have hbig : (lget t.hHead g :: colData t g).length ≤ t.nUp.length :=
      length_le_of_nodup_lt _ _ hnd (fun x hx => (hbnd x hx).1)
    simp only [List.length_cons] at hbig
    omega
  refine ⟨⟨?_, ?_, ?_, ?_, ?_, ?_⟩, hDeq⟩
  · rw [(spliceOutV_rest t j).2.2.2.2.2.2, (spliceOutV_len t j).2.1]
    refine chaseCloses_of_chain _ _ _ _ _ ?_ hnmem hlenD
    exact ringChain_congr (lget t.nDown) (lget (spliceOutV t j).nDown)
      (colData t g) (lget t.hHead g) (lget t.hHead g) hagD hch
  · rw [(spliceOutV_rest t j).2.2.2.2.2.2, hDeq]
    exact hnd
  · rw [(spliceOutV_rest t j).2.2.2.2.2.2, (spliceOutV_len t j).2.1, hDeq]
    intro x hx
    refine ⟨(hbnd x hx).1, ?_, ?_, ?_, ?_⟩
    · rw [hagU x hx]
      exact (hbnd x hx).2.1
    · rw [hagD x hx]
      exact (hbnd x hx).2.2.1
    · rw [hagD x hx, hagU (lget t.nDown x) (hfm x hx)]
      exact (hbnd x hx).2.2.2.1
    · rw [hagU x hx, hagD (lget t.nUp x) (hgm x hx)]
      exact (hbnd x hx).2.2.2.2
  · rw [(spliceOutV_rest t j).2.2.2.2.2.2, (spliceOutV_rest t j).2.2.1]
    exact hhm
  · rw [(spliceOutV_rest t j).2.2.1, hDeq]
    exact hcm
  · rw [hDeq, spliceOutV_hLen, lgetI_set_ne _ (fun he => hgne he.symm)]
    exact hsz

/-- Folding splices over a list of nodes with live (non-`c`) headers keeps
every live column's bundle, removes exactly the spliced nodes from their
columns, and never resurrects a node. -/
lemma foldOut_cols_wf (s : St) (root c : Nat) (hw : Wf s root) :
    ∀ (P : List Nat) (t : St),
      t.nHeader = s.nHeader → t.hHead = s.hHead →
      t.nUp.length = s.nUp.length → t.nDown.length = s.nUp.length →
      t.hLen.length = s.hLen.length →
      (∀ h' ∈ ringHs s root, h' ≠ c → ColWf t h' ∧
        ∀ x ∈ colData t h', x ∈ colData s h') →
      (∀ j ∈ P, lget s.nHeader j ≠ c ∧ lget s.nHeader j ∈ ringHs s root ∧
        j ∈ colData t (lget s.nHeader j)) →
      P.Nodup →
      (∀ h' ∈ ringHs s root, h' ≠ c → ColWf (P.foldl spliceOutV t) h' ∧
        ∀ x ∈ colData (P.foldl spliceOutV t) h', x ∈ colData s h') ∧
      (∀ j ∈ P, j ∉ colData (P.foldl spliceOutV t) (lget s.nHeader j)) ∧
      (∀ j0 : Nat, lget s.nHeader j0 ≠ c → lget s.nHeader j0 ∈ ringHs s root →
        j0 ∉ colData t (lget s.nHeader j0) →
        j0 ∉ colData (P.foldl spliceOutV t) (lget s.nHeader j0)) ∧
      (∀ h' ∈ ringHs s root, h' ≠ c → ∀ x0 ∈ colData t h', x0 ∉ P →
        x0 ∈ colData (P.foldl spliceOutV t) h') := by
  intro P
  induction P with
  | nil =>
    intro t _ _ _ _ _ hC _ _
    exact ⟨hC, by simp, fun j0 _ _ h => h, fun h' _ _ x0 hx0 _ => hx0⟩
  | cons j P' ih =>
    intro t hH1 hH2 hH3 hH4 hH5 hC hP hN
    obtain ⟨hne, hmemhr, hjcol⟩ := hP j (by simp)
    have hhj : lget t.nHeader j = lget s.nHeader j := by rw [hH1]
    have hcw := (hC (lget s.nHeader j) hmemhr hne).1
    have hsubj := (hC (lget s.nHeader j) hmemhr hne).2
    have hLl : lget s.nHeader j < t.hLen.length := by
      rw [hH5, hw.szLen]
      exact hw.ringMem _ (List.mem_cons_of_mem root hmemhr)
    have hstep := spliceOut_colWf t j (lget s.nHeader j) hhj hcw hjcol
      (by rw [hH3, hH4]) hLl
    -- the spliced node's neighbours live in its own column's ring
    have hchj := chain_of_chase (lget t.nDown)
      (lget t.hHead (lget s.nHeader j)) t.nUp.length
      (lget t.hHead (lget s.nHeader j)) hcw.1
    have hjm : j ∈ lget t.hHead (lget s.nHeader j) ::
        colData t (lget s.nHeader j) := List.mem_cons_of_mem _ hjcol
    have hupj : lget t.nUp j ∈ lget t.hHead (lget s.nHeader j) ::
        colData t (lget s.nHeader j) :=
      ring_g_mem (lget t.nDown) (lget t.nUp) _ _ hchj.1
        (fun x hx => (hcw.2.2.1 x hx).2.2.2.1) j hjm
    have hdnj : lget t.nDown j ∈ lget t.hHead (lget s.nHeader j) ::
        colData t (lget s.nHeader j) :=
      ring_f_mem (lget t.nDown) _ _ hchj.1 j hjm
    have hhdrj : ∀ z ∈ lget t.hHead (lget s.nHeader j) ::
        colData t (lget s.nHeader j), lget t.nHeader z = lget s.nHeader j := by
      intro z hz
      rcases List.mem_cons.mp hz with rfl | hz2
      · exact hcw.2.2.2.1
      · exact hcw.2.2.2.2.1 z hz2
    -- other live columns are untouched
    have hother : ∀ g ∈ ringHs s root, g ≠ c → g ≠ lget s.nHeader j →
        ColWf (spliceOutV t j) g ∧
          colData (spliceOutV t j) g = colData t g := by
      intro g hg hgc hgj
      have hcwg := (hC g hg hgc).1
      have hdis : ∀ z ∈ lget t.hHead g :: colData t g,
          lget t.nHeader z = g := by
        intro z hz
        rcases List.mem_cons.mp hz with rfl | hz2
        · exact hcwg.2.2.2.1
        · exact hcwg.2.2.2.2.1 z hz2
      refine spliceOut_other_col t j g hcwg ?_ ?_ (by rw [hhj]; exact hgj)
      · intro hmem
        exact hgj ((hdis _ hmem).symm.trans (hhdrj _ hupj))
      · intro hmem
        exact hgj ((hdis _ hmem).symm.trans (hhdrj _ hdnj))
    -- re-establish all induction hypotheses at the spliced state
    have hC1 : ∀ h' ∈ ringHs s root, h' ≠ c → ColWf (spliceOutV t j) h' ∧
        ∀ x ∈ colData (spliceOutV t j) h', x ∈ colData s h' := by
      intro h' hh' hh'c
      rcases eq_or_ne h' (lget s.nHeader j) with rfl | hne2
      · refine ⟨hstep.1, ?_⟩
        intro x hx
        rw [hstep.2] at hx
        exact hsubj x (List.mem_of_mem_erase hx)
      · obtain ⟨hcw', heq⟩ := hother h' hh' hh'c hne2
        refine ⟨hcw', ?_⟩
        rw [heq]
        exact (hC h' hh' hh'c).2
    have hP1 : ∀ j' ∈ P', lget s.nHeader j' ≠ c ∧
        lget s.nHeader j' ∈ ringHs s root ∧
        j' ∈ colData (spliceOutV t j) (lget s.nHeader j') := by
      intro j' hj'
      obtain ⟨h1, h2, h3⟩ := hP j' (List.mem_cons_of_mem j hj')
      refine ⟨h1, h2, ?_⟩
      rcases eq_or_ne (lget s.nHeader j') (lget s.nHeader j) with heq | hne2
      · rw [heq, hstep.2]
        rw [heq] at h3
        exact (List.mem_erase_of_ne (fun he =>
          (List.nodup_cons.mp hN).1 (by rw [← he]; exact hj'))).mpr h3
      · rw [(hother _ h2 h1 hne2).2]
        exact h3
    have hfields := spliceOutV_rest t j
    have hlens := spliceOutV_len t j
    have hrec := ih (spliceOutV t j) (hfields.2.2.1.trans hH1)
      (hfields.2.2.2.2.2.2.trans hH2) (hlens.2.1.trans hH3)
      (hlens.1.trans hH4) (hlens.2.2.trans hH5) hC1 hP1 (List.nodup_cons.mp hN).2
    have hmono : ∀ j0 : Nat, lget s.nHeader j0 ≠ c →
        lget s.nHeader j0 ∈ ringHs s root →
        j0 ∉ colData t (lget s.nHeader j0) →
        j0 ∉ colData (spliceOutV t j) (lget s.nHeader j0) := by
      intro j0 h1 h2 h3
      rcases eq_or_ne (lget s.nHeader j0) (lget s.nHeader j) with heq | hne2
      · rw [heq, hstep.2]
        intro hmem
        rw [heq] at h3
        exact h3 (List.mem_of_mem_erase hmem)
      · rw [(hother _ h2 h1 hne2).2]
        exact h3
    simp only [List.foldl_cons]
    refine ⟨hrec.1, ?_, ?_, ?_⟩
    · intro j' hj'
      rcases List.mem_cons.mp hj' with rfl | hj'2
      · refine hrec.2.2.1 j' hne hmemhr ?_
        rw [hstep.2]
        exact hcw.2.1.of_cons.not_mem_erase
      · exact hrec.2.1 j' hj'2
    · intro j0 h1 h2 h3
      exact hrec.2.2.1 j0 h1 h2 (hmono j0 h1 h2 h3)
    · intro h' hh' hh'c x0 hx0 hx0p
      have hx0ne : x0 ≠ j := fun he => hx0p (he ▸ List.mem_cons_self j P')
      have hx1 : x0 ∈ colData (spliceOutV t j) h' := by
        rcases eq_or_ne h' (lget s.nHeader j) with rfl | hne2
        · rw [hstep.2]
          exact (List.mem_erase_of_ne hx0ne).mpr hx0
        · rw [(hother h' hh' hh'c hne2).2]
          exact hx0
      exact hrec.2.2.2 h' hh' hh'c x0 hx1
        (fun hm => hx0p (List.mem_cons_of_mem j hm))

lemma wf_L_facts (s : St) (root c : Nat) (hw : Wf s root)
    (hc : c ∈ ringHs s root) :
    ∀ j ∈ (colData s c).flatMap (rowSibs s),
      lget s.nHeader j ≠ c ∧ lget s.nHeader j ∈ ringHs s root ∧
        j ∈ colData s (lget s.nHeader j) := by
  intro j hj
  rw [List.mem_flatMap] at hj
  obtain ⟨x, hx, hjx⟩ := hj
  have hxN : x < s.nUp.length := hw.colMem c hc x (List.mem_cons_of_mem _ hx)
  obtain ⟨hhd, hxcol⟩ := hw.crossLive c hc x hx j hjx
  have hago : lget s.nHeader x = c := hw.colMatch c hc x hx
  refine ⟨?_, hhd, hxcol⟩
  intro he
  have hmapnd := hw.rowHdNodup x hxN
  rw [List.map_cons, List.nodup_cons] at hmapnd
  exact hmapnd.1 (List.mem_map.mpr ⟨j, hjx, by rw [he, hago]⟩)

lemma cover_eq_fold (s : St) (root c : Nat) (hw : Wf s root)
    (hc : c ∈ ringHs s root) :
    cover s c = ((colData s c).flatMap (rowSibs s)).foldl spliceOutV
      { s with hPrev := s.hPrev.set (lget s.hNext c) (lget s.hPrev c),
               hNext := s.hNext.set (lget s.hPrev c) (lget s.hNext c) } := by
  have hchain0 := chain_of_chase (lget s.nDown) (lget s.hHead c) s.nUp.length
    (lget s.hHead c) (hw.colClose c hc)
  rw [cover_eq]
  rw [lget_set_ne _ (wf_hnx s root c hw hc)]
  exact coverColsLoop_unroll _ (lget s.hHead c)
    (lget s.hHead c :: colData s c) (colData s c) (lget s.hHead c) _
    s.nUp.length rfl (fun x _ => rfl) hchain0.1 hchain0.2 (by simp)
    (fun r hr2 => List.mem_cons_of_mem _ hr2) (wf_qcond s root c hw hc)
    (wf_flat_nodup s root c hw hc) (wf_hfuel s root c hw hc)

lemma cover_ring_facts (s : St) (root c : Nat) (hw : Wf s root)
    (hc : c ∈ ringHs s root) :
    ∃ u v, ringHs s root = u ++ c :: v ∧
    ∀ B : St, B.hNext = s.hNext.set (lget s.hPrev c) (lget s.hNext c) →
      B.hPrev = s.hPrev.set (lget s.hNext c) (lget s.hPrev c) →
      ringHs B root = u ++ v ∧
      chaseCloses (lget B.hNext) root B.hNext.length root = true ∧
      (∀ h ∈ root :: (u ++ v),
        lget B.hPrev (lget B.hNext h) = h ∧ lget B.hNext (lget B.hPrev h) = h) := by
  obtain ⟨hchain, hroot⟩ := chain_of_chase (lget s.hNext) root s.hNext.length
    root hw.ringClose
  obtain ⟨u, v, hdec⟩ := List.append_of_mem hc
  refine ⟨u, v, hdec, ?_⟩
  intro B hBn hBp
  -- the ring predecessor of c
  obtain ⟨y, hy, hfy⟩ := chain_pred_ring (lget s.hNext) (ringHs s root) root
    hchain c (List.mem_cons_of_mem root hc)
  have hyprev : lget s.hPrev c = y := by
    rw [← hfy]
    exact hw.ringCoh1 y hy
  have hpvm : lget s.hPrev c ∈ root :: ringHs s root := hyprev ▸ hy
  have hnxm : lget s.hNext c ∈ root :: ringHs s root :=
    ring_f_mem (lget s.hNext) (ringHs s root) root hchain c
      (List.mem_cons_of_mem root hc)
  have hf' : ∀ x ∈ root :: ringHs s root,
      lget B.hNext x = if x = lget s.hPrev c then lget s.hNext c
        else lget s.hNext x := by
    intro x _
    rw [hBn]
    rcases eq_or_ne x (lget s.hPrev c) with rfl | hne
    · have hb : lget s.hPrev c < s.hNext.length := hw.ringMem _ hpvm
      rw [if_pos rfl, lget_set_eq _ hb]
    · rw [if_neg hne, lget_set_ne _ (fun he => hne he.symm)]
  have hg' : ∀ x ∈ root :: ringHs s root,
      lget B.hPrev x = if x = lget s.hNext c then lget s.hPrev c
        else lget s.hPrev x := by
    intro x _
    rw [hBp]
    rcases eq_or_ne x (lget s.hNext c) with rfl | hne
    · have hb : lget s.hNext c < s.hPrev.length := by
        rw [hw.szPrev]
        exact hw.ringMem _ hnxm
      rw [if_pos rfl, lget_set_eq _ hb]
    · rw [if_neg hne, lget_set_ne _ (fun he => hne he.symm)]
  have hchain' : RingChain (lget B.hNext) root (u ++ v) root := by
    refine ring_erase_chain (lget s.hNext) (lget s.hPrev) (lget B.hNext) root c
      u v ?_ ?_ ?_ ?_
    · rw [← hdec]; exact hchain
    · rw [← hdec]; exact hw.ringNodup
    · rw [← hdec]; exact hw.ringCoh1
    · rw [← hdec]; exact hf'
  have hrootnot : root ∉ u ++ v := by
    intro hm
    refine hroot ?_
    have : root ∈ ringHs s root := by
      rw [hdec]
      rcases List.mem_append.mp hm with hm2 | hm2
      · exact List.mem_append_left _ hm2
      · exact List.mem_append_right _ (List.mem_cons_of_mem _ hm2)
    exact this
  have hlenuv : (u ++ v).length < s.hNext.length := by
    have hbig : (root :: ringHs s root).length ≤ s.hNext.length :=
      length_le_of_nodup_lt _ _ hw.ringNodup hw.ringMem
    have h2 : (ringHs s root).length = (u ++ v).length + 1 := by
      rw [hdec]
      simp
      omega
    simp only [List.length_cons] at hbig
    omega
  have hBlen : B.hNext.length = s.hNext.length := by
    rw [hBn, List.length_set]
  have hring : ringHs B root = u ++ v := by
    show chase (lget B.hNext) root B.hNext.length root = u ++ v
    rw [hBlen]
    exact chase_of_chain _ _ _ _ _ hchain' hrootnot hlenuv
  have hcnotu : c ∉ u := by
    have hnd2 : (ringHs s root).Nodup := hw.ringNodup.of_cons
    rw [hdec, List.nodup_append] at hnd2
    intro hcu
    exact hnd2.2.2 hcu (by simp)
  have herase : (ringHs s root).erase c = u ++ v := by
    rw [hdec, List.erase_append_right _ hcnotu, List.erase_cons_head]
  have hcoh' := ring_erase_coh (lget s.hNext) (lget s.hPrev) (lget B.hNext)
    (lget B.hPrev) root c (ringHs s root) hchain hw.ringNodup hw.ringCoh1 hc
    hf' hg'
  refine ⟨hring, ?_, ?_⟩
  · rw [hBlen]
    exact chaseCloses_of_chain _ _ _ _ _ hchain' hrootnot hlenuv
  · intro h hh
    have hh2 : h ∈ root :: (ringHs s root).erase c := by
      rw [herase]
      exact hh
    exact ⟨(hcoh' h hh2).1, (hcoh' h hh2).2⟩

/-- Every live column of a well-formed structure carries its `ColWf`
bundle. -/
lemma wf_colWf (s : St) (root h : Nat) (hw : Wf s root)
    (hh : h ∈ ringHs s root) : ColWf s h :=
  ⟨hw.colClose h hh, hw.colNodup h hh,
    fun x hx => ⟨hw.colMem h hh x hx, (hw.colBnd h hh x hx).1,
      (hw.colBnd h hh x hx).2, hw.colCoh1 h hh x hx, hw.colCoh2 h hh x hx⟩,
    hw.headMatch h hh, hw.colMatch h hh, hw.colSize h hh⟩

/-- `cover` preserves the whole structural invariant: after covering a
live column `c`, the remaining structure is again well-formed (with `c`
detached from the header ring and the spliced nodes gone from their
columns). -/
lemma wf_cover (s : St) (root c : Nat) (hw : Wf s root)
    (hc : c ∈ ringHs s root) : Wf (cover s c) root := by
  have hB := cover_eq_fold s root c hw hc
  obtain ⟨u, v, hdec, hBall⟩ := cover_ring_facts s root c hw hc
  have hPrv : (cover s c).hPrev =
      s.hPrev.set (lget s.hNext c) (lget s.hPrev c) := by
    rw [hB]; exact (foldOut_fields _ _).2.2.2.2.1
  have hNxt : (cover s c).hNext =
      s.hNext.set (lget s.hPrev c) (lget s.hNext c) := by
    rw [hB]; exact (foldOut_fields _ _).2.2.2.2.2.1
  have hLft : (cover s c).nLeft = s.nLeft := by
    rw [hB]; exact (foldOut_fields _ _).1
  have hRgt : (cover s c).nRight = s.nRight := by
    rw [hB]; exact (foldOut_fields _ _).2.1
  have hHdr : (cover s c).nHeader = s.nHeader := by
    rw [hB]; exact (foldOut_fields _ _).2.2.1
  have hHd : (cover s c).hHead = s.hHead := by
    rw [hB]; exact (foldOut_fields _ _).2.2.2.2.2.2.1
  have hDlen : (cover s c).nDown.length = s.nDown.length := by
    rw [hB]; exact (foldOut_fields _ _).2.2.2.2.2.2.2.1
  have hUlen : (cover s c).nUp.length = s.nUp.length := by
    rw [hB]; exact (foldOut_fields _ _).2.2.2.2.2.2.2.2.1
  have hLlen : (cover s c).hLen.length = s.hLen.length := by
    rw [hB]; exact (foldOut_fields _ _).2.2.2.2.2.2.2.2.2
  obtain ⟨hringB, hcloseB, hcohB⟩ := hBall (cover s c) hNxt hPrv
  have hK := foldOut_cols_wf s root c hw ((colData s c).flatMap (rowSibs s))
    { s with hPrev := s.hPrev.set (lget s.hNext c) (lget s.hPrev c),
             hNext := s.hNext.set (lget s.hPrev c) (lget s.hNext c) }
    rfl rfl rfl hw.szDown rfl
    (fun h' hh' _ => ⟨wf_colWf s root h' hw hh', fun _ hx => hx⟩)
    (wf_L_facts s root c hw hc) (wf_flat_nodup s root c hw hc)
  rw [← hB] at hK
  obtain ⟨hK1, hK2, _, hK4⟩ := hK
  have hmemsub : ∀ h, h ∈ u ++ v → h ∈ ringHs s root := by
    intro h hh
    rw [hdec]
    rcases List.mem_append.mp hh with h1 | h1
    · exact List.mem_append_left _ h1
    · exact List.mem_append_right _ (List.mem_cons_of_mem _ h1)
  have hcnot : c ∉ u ++ v := by
    have hnd2 : (ringHs s root).Nodup := hw.ringNodup.of_cons
    rw [hdec, List.nodup_append] at hnd2
    intro hm
    rcases List.mem_append.mp hm with h1 | h1
    · exact hnd2.2.2 h1 (by simp)
    · exact (List.nodup_cons.mp hnd2.2.1).1 h1
  have hne_c : ∀ h, h ∈ u ++ v → h ≠ c := fun h hh he => hcnot (he ▸ hh)
  have hmem_uv : ∀ h, h ∈ ringHs s root → h ≠ c → h ∈ u ++ v := by
    intro h hh hne
    rw [hdec] at hh
    rcases List.mem_append.mp hh with h1 | h1
    · exact List.mem_append_left _ h1
    · rcases List.mem_cons.mp h1 with h2 | h2
      · exact absurd h2 hne
      · exact List.mem_append_right _ h2
  have hliveB : ∀ h, h ∈ ringHs (cover s c) root →
      h ∈ ringHs s root ∧ h ≠ c := by
    intro h hh
    rw [hringB] at hh
    exact ⟨hmemsub h hh, hne_c h hh⟩
  have hrowS : ∀ x, rowSibs (cover s c) x = rowSibs s x := by
    intro x
    show chase (lget (cover s c).nRight) x (cover s c).nRight.length x =
      chase (lget s.nRight) x s.nRight.length x
    rw [hRgt]
  refine ⟨?_, ?_, ?_, ?_, ?_, ?_, ?_, ?_, ?_, ?_, ?_, ?_, ?_, ?_, ?_, ?_, ?_,
    ?_, ?_, ?_, ?_, ?_, ?_, ?_, ?_, ?_, ?_, ?_, ?_⟩
  · rw [hDlen, hUlen]; exact hw.szDown
  · rw [hLft, hUlen]; exact hw.szLeft
  · rw [hRgt, hUlen]; exact hw.szRight
  · rw [hHdr, hUlen]; exact hw.szHeader
  · rw [hPrv, hNxt, List.length_set, List.length_set]; exact hw.szPrev
  · rw [hLlen, hNxt, List.length_set]; exact hw.szLen
  · rw [hHd, hNxt, List.length_set]; exact hw.szHead
  · rw [hNxt, List.length_set]; exact hw.rootLt
  · exact hcloseB
  · rw [hringB]
    have hsub : List.Sublist (root :: (u ++ v)) (root :: ringHs s root) := by
      rw [hdec]
      exact List.Sublist.cons₂ root
        (List.Sublist.append_left (List.sublist_cons_self c v) u)
    exact List.Nodup.sublist hsub hw.ringNodup
  · intro h hh
    rw [hNxt, List.length_set]
    rw [hringB] at hh
    rcases List.mem_cons.mp hh with rfl | hh2
    · exact hw.rootLt
    · exact hw.ringMem _ (List.mem_cons_of_mem _ (hmemsub _ hh2))
  · intro h hh
    rw [hringB] at hh
    exact (hcohB h hh).1
  · intro h hh
    rw [hringB] at hh
    exact (hcohB h hh).2
  · intro h hh
    rw [hHd, hUlen]
    exact hw.headLt h (hliveB h hh).1
  · intro h hh
    exact ((hK1 h (hliveB h hh).1 (hliveB h hh).2).1).1
  · intro h hh
    exact ((hK1 h (hliveB h hh).1 (hliveB h hh).2).1).2.1
  · intro h hh x hx
    exact (((hK1 h (hliveB h hh).1 (hliveB h hh).2).1).2.2.1 x hx).1
  · intro h hh x hx
    exact (((hK1 h (hliveB h hh).1 (hliveB h hh).2).1).2.2.1 x hx).2.2.2.1
  · intro h hh x hx
    exact (((hK1 h (hliveB h hh).1 (hliveB h hh).2).1).2.2.1 x hx).2.2.2.2
  · intro h hh x hx
    exact ⟨(((hK1 h (hliveB h hh).1 (hliveB h hh).2).1).2.2.1 x hx).2.1,
      (((hK1 h (hliveB h hh).1 (hliveB h hh).2).1).2.2.1 x hx).2.2.1⟩
  · intro h hh
    exact ((hK1 h (hliveB h hh).1 (hliveB h hh).2).1).2.2.2.1
  · intro h hh
    exact ((hK1 h (hliveB h hh).1 (hliveB h hh).2).1).2.2.2.2.1
  · intro h hh
    exact ((hK1 h (hliveB h hh).1 (hliveB h hh).2).1).2.2.2.2.2
  · intro x hx
    rw [hUlen] at hx
    rw [hRgt]
    exact hw.rowClose x hx
  · intro x hx
    rw [hUlen] at hx
    rw [hrowS x]
    exact hw.rowNodup x hx
  · intro x hx y hy
    rw [hUlen] at hx ⊢
    rw [hrowS x] at hy
    exact hw.rowMem x hx y hy
  · intro x hx y hy
    rw [hUlen] at hx
    rw [hrowS x] at hy
    rw [hLft, hRgt]
    exact hw.rowCoh x hx y hy
  · intro x hx
    rw [hUlen] at hx
    rw [hrowS x, hHdr]
    exact hw.rowHdNodup x hx
  · intro h hh x hx y hy
    have hlive := hliveB h hh
    have hxs : x ∈ colData s h := (hK1 h hlive.1 hlive.2).2 x hx
    have hhdx : lget s.nHeader x = h := hw.colMatch h hlive.1 x hxs
    have hxN : x < s.nUp.length := hw.colMem h hlive.1 x
      (List.mem_cons_of_mem _ hxs)
    rw [hrowS x] at hy
    have hyN : y < s.nUp.length := hw.rowMem x hxN y hy
    obtain ⟨hgring, hycol⟩ := hw.crossLive h hlive.1 x hxs y hy
    have hxnotL : x ∉ (colData s c).flatMap (rowSibs s) := by
      intro hxL
      have hq := hK2 x hxL
      rw [hhdx] at hq
      exact hq hx
    have hsym2 := mem_rowSibs_symm s x y (hw.rowClose x hxN)
      (hw.rowNodup x hxN) (wf_sibs_bnd s root hw x hxN) hy
    have hgnec : lget s.nHeader y ≠ c := by
      intro he
      rw [he] at hycol
      exact hxnotL (List.mem_flatMap.mpr ⟨y, hycol, hsym2.1⟩)
    have hynotL : y ∉ (colData s c).flatMap (rowSibs s) := by
      intro hyL
      rw [List.mem_flatMap] at hyL
      obtain ⟨x1, hx1c, hyx1⟩ := hyL
      have hx1N : x1 < s.nUp.length := hw.colMem c hc x1
        (List.mem_cons_of_mem _ hx1c)
      have hsym1 := mem_rowSibs_symm s x1 y (hw.rowClose x1 hx1N)
        (hw.rowNodup x1 hx1N) (wf_sibs_bnd s root hw x1 hx1N) hyx1
      have hxy : x ∈ y :: rowSibs s y := List.mem_cons_of_mem _ hsym2.1
      have hxx1 : x ∈ x1 :: rowSibs s x1 := (hsym1.2 x).mpr hxy
      have hxne : x ≠ x1 := by
        intro he
        have hq : lget s.nHeader x1 = c := hw.colMatch c hc x1 hx1c
        rw [← he, hhdx] at hq
        exact hlive.2 hq
      rcases List.mem_cons.mp hxx1 with he | hmem
      · exact hxne he
      · exact hxnotL (List.mem_flatMap.mpr ⟨x1, hx1c, hmem⟩)
    refine ⟨?_, ?_⟩
    · rw [hHdr, hringB]
      exact hmem_uv _ hgring hgnec
    · rw [hHdr]
      exact hK4 (lget s.nHeader y) hgring hgnec y hycol hynotL

/-- Splicing nodes whose headers all differ from `d` never touches slot
`d` of the size array. -/
lemma foldOut_hLen_ne (P : List Nat) (t : St) (d : Nat)
    (hP : ∀ j ∈ P, lget t.nHeader j ≠ d) :
    lgetI (P.foldl spliceOutV t).hLen d = lgetI t.hLen d := by
  induction P generalizing t with
  | nil => rfl
  | cons j P' ih =>
    simp only [List.foldl_cons]
    have hstep : lgetI (spliceOutV t j).hLen d = lgetI t.hLen d := by
      rw [spliceOutV_hLen]
      exact lgetI_set_ne _ (hP j (by simp))
    have hrec := ih (spliceOutV t j) (fun j' hj' => by
      rw [(spliceOutV_rest t j).2.2.1]
      exact hP j' (List.mem_cons_of_mem _ hj'))
    rw [hrec, hstep]

/-- Covering a live column removes exactly it from the header ring and
leaves the size of the covered column itself and of every detached header
unchanged (their sizes are frozen). -/
lemma cover_facts (s : St) (root c : Nat) (hw : Wf s root)
    (hc : c ∈ ringHs s root) :
    ringHs (cover s c) root = (ringHs s root).erase c ∧
    ∀ d, d = c ∨ d ∉ ringHs s root →
      lgetI (cover s c).hLen d = lgetI s.hLen d := by
  have hB := cover_eq_fold s root c hw hc
  obtain ⟨u, v, hdec, hBall⟩ := cover_ring_facts s root c hw hc
  have hPrv : (cover s c).hPrev =
      s.hPrev.set (lget s.hNext c) (lget s.hPrev c) := by
    rw [hB]; exact (foldOut_fields _ _).2.2.2.2.1
  have hNxt : (cover s c).hNext =
      s.hNext.set (lget s.hPrev c) (lget s.hNext c) := by
    rw [hB]; exact (foldOut_fields _ _).2.2.2.2.2.1
  obtain ⟨hringB, _, _⟩ := hBall (cover s c) hNxt hPrv
  constructor
  · have hnd2 : (ringHs s root).Nodup := hw.ringNodup.of_cons
    rw [hdec, List.nodup_append] at hnd2
    have hcnotu : c ∉ u := fun hcu => hnd2.2.2 hcu (by simp)
    rw [hringB, hdec, List.erase_append_right _ hcnotu, List.erase_cons_head]
  · intro d hd
    rw [hB]
    refine foldOut_hLen_ne _ _ d ?_
    intro j hj
    have hL := wf_L_facts s root c hw hc j hj
    rcases hd with rfl | hd
    · exact hL.1
    · intro he
      apply hd
      rw [← he]
      exact hL.2.1

/-- Shared inverse law: on a well-formed structure, uncovering right after
covering restores the state exactly. -/
lemma cover_then_uncover (s : St) (root c : Nat) (hw : Wf s root)
    (hc : c ∈ ringHs s root) : uncover (cover s c) c = s :=
  uncover_cover_core s c (wf_hnx s root c hw hc) (wf_hpv s root c hw hc)
    (hw.ringCoh1 c (List.mem_cons_of_mem root hc))
    (hw.ringCoh2 c (List.mem_cons_of_mem root hc))
    (hw.colClose c hc) (hw.colCoh1 c hc)
    (fun r hr => wf_rowrev s root hw r
      (hw.colMem c hc r (List.mem_cons_of_mem _ hr)))
    (wf_qcond s root c hw hc) (wf_flat_nodup s root c hw hc)
    (wf_hfuel s root c hw hc)

/-- The stack discipline of the search: a state paired with the stack of
currently unmatched covers, each performed on a live column of the state
below it, starting from a well-formed base. -/
def GoodStack (root : Nat) : St → List Nat → Prop
  | s, [] => Wf s root
  | s, c :: stk =>
      ∃ s0, GoodStack root s0 stk ∧ c ∈ ringHs s0 root ∧ s = cover s0 c

lemma goodStack_wf (root : Nat) :
    ∀ stk s, GoodStack root s stk → Wf s root := by
  intro stk
  induction stk with
  | nil => intro s h; exact h
  | cons c stk ih =>
    intro s h
    obtain ⟨s0, hg, hc, rfl⟩ := h
    exact wf_cover s0 root c (ih s0 hg) hc

/-- The states visited by the search engine between matched cover/uncover
pairs: any sequence of `cover` steps on live columns and stack-popping
`uncover` steps, starting from a well-formed structure (as produced by
construction). -/
inductive Reach (root : Nat) : St → List Nat → Prop where
  | base (s : St) (hw : Wf s root) : Reach root s []
  | cov (s : St) (stk : List Nat) (c : Nat) (h : Reach root s stk)
      (hc : c ∈ ringHs s root) : Reach root (cover s c) (c :: stk)
  | unc (s : St) (stk : List Nat) (c : Nat) (h : Reach root s (c :: stk)) :
      Reach root (uncover s c) stk

lemma reach_goodStack (root : Nat) (s : St) (stk : List Nat)
    (h : Reach root s stk) : GoodStack root s stk := by
  induction h with
  | base s hw => exact hw
  | cov s stk c h hc ih => exact ⟨s, ih, hc, rfl⟩
  | unc s stk c h ih =>
    obtain ⟨s0, hg, hcm, rfl⟩ := ih
    rw [cover_then_uncover s0 root c (goodStack_wf root stk s0 hg) hcm]
    exact hg

/-- C7: at every point of the search — after construction (a well-formed
structure) and between any stack-disciplined sequence of matched
cover/uncover operations — every column header currently linked into the
root's horizontal ring has its `size` field equal to the number of nodes
reached by walking `head.down` until returning to the head; and each
further step (`cover` of a live column, or the `uncover` popping the
stack) leaves the size of every detached header unchanged (frozen). -/
theorem search_size_invariant (root : Nat) (s : St) (stk : List Nat)
    (h : Reach root s stk) :
    (∀ h' ∈ ringHs s root,
      lgetI s.hLen h' = ((colData s h').length : Int)) ∧
    (∀ d, d ∉ ringHs s root → ∀ c ∈ ringHs s root,
      lgetI (cover s c).hLen d = lgetI s.hLen d ∧
      d ∉ ringHs (cover s c) root) ∧
    (∀ c stk', stk = c :: stk' → ∀ d, d ∉ ringHs s root → d ≠ c →
      lgetI (uncover s c).hLen d = lgetI s.hLen d) := by
  have hg := reach_goodStack root s stk h
  have hw := goodStack_wf root stk s hg
  refine ⟨hw.colSize, ?_, ?_⟩
  · intro d hd c hcm
    have hcf := cover_facts s root c hw hcm
    refine ⟨hcf.2 d (Or.inr hd), ?_⟩
    rw [hcf.1]
    intro hmem
    exact hd (List.mem_of_mem_erase hmem)
  · intro c stk' hstk d hd hdc
    rw [hstk] at hg
    obtain ⟨s0, hg0, hcm, rfl⟩ := hg
    have hw0 := goodStack_wf root stk' s0 hg0
    rw [cover_then_uncover s0 root c hw0 hcm]
    have hcf := cover_facts s0 root c hw0 hcm
    have hd0 : d ∉ ringHs s0 root := by
      intro hmem
      apply hd
      rw [hcf.1]
      exact (List.mem_erase_of_ne hdc).mpr hmem
    exact (hcf.2 d (Or.inr hd0)).symm

theorem search_size_invariant_witness :
    (∀ h' ∈ ringHs (cover stB1 0) 1,
      lgetI (cover stB1 0).hLen h' =
        ((colData (cover stB1 0) h').length : Int)) ∧
    (∀ d, d ∉ ringHs (cover stB1 0) 1 → ∀ c ∈ ringHs (cover stB1 0) 1,
      lgetI (cover (cover stB1 0) c).hLen d = lgetI (cover stB1 0).hLen d ∧
      d ∉ ringHs (cover (cover stB1 0) c) 1) ∧
    (∀ c stk', ([0] : List Nat) = c :: stk' → ∀ d,
      d ∉ ringHs (cover stB1 0) 1 → d ≠ c →
      lgetI (uncover (cover stB1 0) c).hLen d =
        lgetI (cover stB1 0).hLen d) :=
  search_size_invariant 1 (cover stB1 0) [0]
    (Reach.cov stB1 [] 0 (Reach.base stB1 (by constructor <;> decide))
      (by decide))

/-! ### Claim C8: a column of zeros kills the search immediately

The built structure's header ring is `0, 1, ..., nCols-1` (the root is
header `nCols`), every header's `length` is the count of ones in its
column, and a column of zeros therefore has `length = 0`: the very first
`recurse` invocation picks it (MRV) and returns with no solutions. -/

lemma lget_append_left {l l' : List Nat} {i : Nat} (h : i < l.length) :
    lget (l ++ l') i = lget l i := List.getD_append _ _ _ _ h

lemma lget_append_right {l l' : List Nat} {i : Nat} (h : l.length ≤ i) :
    lget (l ++ l') i = lget l' (i - l.length) :=
  List.getD_append_right _ _ _ _ h

lemma lgetI_append_left {l l' : List Int} {i : Nat} (h : i < l.length) :
    lgetI (l ++ l') i = lgetI l i := List.getD_append _ _ _ _ h

lemma lgetI_append_right {l l' : List Int} {i : Nat} (h : l.length ≤ i) :
    lgetI (l ++ l') i = lgetI l' (i - l.length) :=
  List.getD_append_right _ _ _ _ h

/-- Every pair produced by `enum` is an in-bounds index with the list's
element there. -/
lemma mem_enum_spec {α : Type} (l : List α) (p : Nat × α) (hp : p ∈ l.enum) :
    p.1 < l.length ∧ p.2 ∈ l ∧ ∀ d : α, l.getD p.1 d = p.2 := by
  obtain ⟨i, x⟩ := p
  obtain ⟨-, h2, h3⟩ := List.mem_enumFrom hp
  simp only [Nat.zero_add, Nat.sub_zero] at h2 h3
  refine ⟨h2, ?_, ?_⟩
  · rw [h3]
    exact List.getElem_mem h2
  · intro d
    rw [List.getD_eq_getElem l d h2, h3]

/-- A walk along a successor-shaped ring from `j` to the stop `n`. -/
lemma chase_upto (f : Nat → Nat) (n : Nat)
    (hstep : ∀ j, j + 1 < n → f j = j + 1) (hlast : f (n-1) = n) :
    ∀ d j fuel, j + d + 1 = n → d < fuel →
      chase f n fuel j = List.range' (j+1) d := by
  intro d
  induction d with
  | zero =>
    intro j fuel hj hf
    cases fuel with
    | zero => omega
    | succ fu =>
      rw [chase]
      have he : f j = n := by
        have hje : j = n - 1 := by omega
        rw [hje, hlast]
      simp [he, List.range']
  | succ d ih =>
    intro j fuel hj hf
    cases fuel with
    | zero => omega
    | succ fu =>
      rw [chase]
      have hfj : f j = j + 1 := hstep j (by omega)
      have hne : j + 1 ≠ n := by omega
      simp only [hfj, if_neg hne]
      rw [List.range'_succ]
      exact congrArg _ (ih (j+1) fu (by omega) (by omega))

lemma lgetI_zero_of_forall (l : List Int) (h : ∀ x ∈ l, x = 0) :
    ∀ j, lgetI l j = 0 := by
  intro j
  by_cases hb : j < l.length
  · show l.getD j 0 = 0
    rw [List.getD_eq_getElem l 0 hb]
    exact h _ (List.getElem_mem hb)
  · exact List.getD_eq_default _ _ (Nat.le_of_not_lt hb)

/-- The column-building fold of `solve` (before rows and root are added). -/
def buildCols (n : Nat) : St := (List.range n).foldl addColumn stEmpty

/-- One `addColumn` step keeps the header-ring shape `0 → 1 → ... → k → 0`
and the all-zero sizes. -/
lemma addColumn_step (s : St) (k : Nat) (hk : k ≠ 0)
    (hP : s.hPrev.length = k) (hN : s.hNext.length = k)
    (hL : s.hLen.length = k)
    (hstep : ∀ j, j + 1 < k → lget s.hNext j = j + 1)
    (hlast : lget s.hNext (k - 1) = 0)
    (hzero : ∀ x ∈ s.hLen, x = 0) :
    (addColumn s k).hPrev.length = k + 1 ∧
    (addColumn s k).hNext.length = k + 1 ∧
    (addColumn s k).hLen.length = k + 1 ∧
    (∀ j, j + 1 < k + 1 → lget (addColumn s k).hNext j = j + 1) ∧
    lget (addColumn s k).hNext (k + 1 - 1) = 0 ∧
    lget (addColumn s k).hPrev 0 = k + 1 - 1 ∧
    (∀ x ∈ (addColumn s k).hLen, x = 0) := by
  have hk1 : 1 ≤ k := Nat.one_le_iff_ne_zero.mpr hk
  have hNx : (addColumn s k).hNext =
      (s.hNext ++ [lget s.hNext (k-1)]).set (k-1) k := by
    simp only [addColumn]
    rw [if_neg hk]
    rfl
  have hPv : (addColumn s k).hPrev =
      (s.hPrev ++ [k-1]).set (lget (s.hNext ++ [lget s.hNext (k-1)]) (k-1)) k := by
    simp only [addColumn]
    rw [if_neg hk]
    rfl
  have hLn : (addColumn s k).hLen = s.hLen ++ [0] := by
    simp only [addColumn]
    rw [if_neg hk]
    rfl
  have hinner : lget (s.hNext ++ [lget s.hNext (k-1)]) (k-1) = 0 := by
    rw [lget_append_left (by omega), hlast]
  rw [hinner] at hPv
  refine ⟨?_, ?_, ?_, ?_, ?_, ?_, ?_⟩
  · rw [hPv, List.length_set, List.length_append, hP]
    rfl
  · rw [hNx, List.length_set, List.length_append, hN]
    rfl
  · rw [hLn, List.length_append, hL]
    rfl
  · intro j hj
    rw [hNx]
    rcases eq_or_ne j (k-1) with rfl | hne
    · rw [lget_set_eq _
        (by rw [List.length_append, hN, List.length_singleton]; omega)]
      omega
    · rw [lget_set_ne _ (fun he => hne he.symm),
        lget_append_left (by rw [hN]; omega)]
      exact hstep j (by omega)
  · rw [hNx, lget_set_ne _ (by omega),
      lget_append_right (by rw [hN]; omega), hN]
    have he0 : k + 1 - 1 - k = 0 := by omega
    rw [he0]
    exact hlast
  · rw [hPv, lget_set_eq _ (by rw [List.length_append, hP]; omega)]
    omega
  · intro x hx
    rw [hLn] at hx
    rcases List.mem_append.mp hx with hx | hx
    · exact hzero x hx
    · simpa using hx

lemma buildCols_facts : ∀ n, 1 ≤ n →
    (buildCols n).hPrev.length = n ∧
    (buildCols n).hNext.length = n ∧
    (buildCols n).hLen.length = n ∧
    (∀ j, j + 1 < n → lget (buildCols n).hNext j = j + 1) ∧
    lget (buildCols n).hNext (n - 1) = 0 ∧
    lget (buildCols n).hPrev 0 = n - 1 ∧
    (∀ x ∈ (buildCols n).hLen, x = 0) := by
  intro n
  induction n with
  | zero => intro h; omega
  | succ k ih =>
    intro _
    by_cases hk : k = 0
    · subst hk
      have h1 : buildCols 1 =
          ⟨[0], [0], [0], [0], [0], [0], [0], [0], [0], [0]⟩ := by decide
      rw [h1]
      refine ⟨rfl, rfl, rfl, ?_, by decide, by decide, by decide⟩
      intro j hj
      omega
    · have hk1 : 1 ≤ k := Nat.one_le_iff_ne_zero.mpr hk
      obtain ⟨hP, hN, hL, hstep, hlast, _, hzero⟩ := ih hk1
      have hunf : buildCols (k+1) = addColumn (buildCols k) k := by
        show (List.range (k+1)).foldl addColumn stEmpty = _
        rw [List.range_succ, List.foldl_append]
        rfl
      rw [hunf]
      exact addColumn_step (buildCols k) k hk hP hN hL hstep hlast hzero

/-- The `row.forEach` body of `addRow`, named for induction. -/
def addCell (nCols rowIndex : Nat) (acc : Option (St × Option Nat))
    (p : Nat × Nat) : Option (St × Option Nat) :=
  match acc with
  | none => none
  | some (s, left) =>
    if p.2 ≠ 0 then
      if p.1 < nCols then
        let q := createNode s p.1 left (some (lget s.nUp (lget s.hHead p.1)))
        let s := { q.1 with nRow := q.1.nRow.set q.2 rowIndex }
        let s := { s with hLen := s.hLen.set p.1 (lgetI s.hLen p.1 + 1) }
        some (s, some q.2)
      else none
    else acc

lemma addRow_eq (nCols : Nat) (s : St) (rowIndex : Nat) (row : List Nat) :
    addRow nCols s rowIndex row =
      (row.enum.foldl (addCell nCols rowIndex) (some (s, none))).map (·.1) :=
  rfl

/-- One non-zero in-bounds cell: the header arrays other than `hLen` are
untouched and `hLen` gains one at the cell's column. -/
lemma addCell_facts (nCols rowIndex : Nat) (t : St) (left : Option Nat)
    (p : Nat × Nat) (hb : p.1 < nCols) (hz : p.2 ≠ 0) :
    ∃ t1 n1, addCell nCols rowIndex (some (t, left)) p = some (t1, some n1) ∧
      t1.hPrev = t.hPrev ∧ t1.hNext = t.hNext ∧
      t1.hLen = t.hLen.set p.1 (lgetI t.hLen p.1 + 1) := by
  simp only [addCell]
  rw [if_pos hz, if_pos hb]
  exact ⟨_, _, rfl, rfl, rfl, rfl⟩

lemma addCell_fold_facts (nCols rowIndex c0 : Nat) :
    ∀ (l : List (Nat × Nat)) (t : St) (left : Option Nat),
      (∀ p ∈ l, p.1 < nCols) →
      (∀ p ∈ l, p.1 = c0 → p.2 = 0) →
      ∃ q : St × Option Nat,
        List.foldl (addCell nCols rowIndex) (some (t, left)) l = some q ∧
        q.1.hPrev = t.hPrev ∧ q.1.hNext = t.hNext ∧
        q.1.hLen.length = t.hLen.length ∧
        lgetI q.1.hLen c0 = lgetI t.hLen c0 ∧
        ∀ j, lgetI t.hLen j ≤ lgetI q.1.hLen j := by
  intro l
  induction l with
  | nil =>
    intro t left _ _
    exact ⟨(t, left), rfl, rfl, rfl, rfl, rfl, fun j => le_refl _⟩
  | cons p l' ih =>
    intro t left hB hC
    by_cases hz : p.2 = 0
    · have hstep : addCell nCols rowIndex (some (t, left)) p = some (t, left) := by
        simp only [addCell]
        rw [if_neg (fun h => h hz)]
      rw [List.foldl_cons, hstep]
      exact ih t left (fun p hp => hB p (List.mem_cons_of_mem _ hp))
        (fun p hp => hC p (List.mem_cons_of_mem _ hp))
    · have hb := hB p (by simp)
      obtain ⟨t1, n1, hstep, h1, h2, h3⟩ :=
        addCell_facts nCols rowIndex t left p hb hz
      rw [List.foldl_cons, hstep]
      obtain ⟨q, hfold, g1, g2, g3, g4, g5⟩ := ih t1 (some n1)
        (fun p hp => hB p (List.mem_cons_of_mem _ hp))
        (fun p hp => hC p (List.mem_cons_of_mem _ hp))
      have hne : p.1 ≠ c0 := fun he => hz (hC p (by simp) he)
      refine ⟨q, hfold, g1.trans h1, g2.trans h2, ?_, ?_, ?_⟩
      · rw [g3, h3, List.length_set]
      · rw [g4, h3, lgetI_set_ne _ hne]
      · intro j
        refine le_trans ?_ (g5 j)
        rw [h3]
        rcases eq_or_ne p.1 j with rfl | hnej
        · by_cases hbound : p.1 < t.hLen.length
          · rw [lgetI_set_eq _ hbound]
            omega
          · rw [List.set_eq_of_length_le (Nat.le_of_not_lt hbound)]
        · rw [lgetI_set_ne _ hnej]

/-- `addRow` on a row no longer than the column count succeeds and only
adds ones to `hLen` at the columns of the row's nonzero cells. -/
lemma addRow_facts (nCols c0 : Nat) (s : St) (rowIndex : Nat)
    (row : List Nat) (hlen : row.length ≤ nCols) (hc0 : lget row c0 = 0) :
    ∃ s', addRow nCols s rowIndex row = some s' ∧
      s'.hPrev = s.hPrev ∧ s'.hNext = s.hNext ∧
      s'.hLen.length = s.hLen.length ∧
      lgetI s'.hLen c0 = lgetI s.hLen c0 ∧
      ∀ j, lgetI s.hLen j ≤ lgetI s'.hLen j := by
  obtain ⟨q, hq, h1, h2, h3, h4, h5⟩ :=
    addCell_fold_facts nCols rowIndex c0 row.enum s none
      (fun p hp => lt_of_lt_of_le (mem_enum_spec row p hp).1 hlen)
      (fun p hp he => by
        have hsp := (mem_enum_spec row p hp).2.2 0
        rw [← hsp, he]
        exact hc0)
  refine ⟨q.1, ?_, h1, h2, h3, h4, h5⟩
  rw [addRow_eq, hq]
  rfl

/-- The row-accumulating fold of `buildRows`, named for induction. -/
def addRowAcc (nCols : Nat) (acc : Option St) (p : Nat × List Nat) :
    Option St :=
  match acc with
  | none => none
  | some s => addRow nCols s p.1 p.2

lemma buildRows_eq (nCols : Nat) (s : St) (m : List (List Nat)) :
    buildRows nCols s m = m.enum.foldl (addRowAcc nCols) (some s) := rfl

lemma buildRows_fold_facts (nCols c0 : Nat) :
    ∀ (l : List (Nat × List Nat)) (s : St),
      (∀ p ∈ l, (p.2 : List Nat).length ≤ nCols) →
      (∀ p ∈ l, lget p.2 c0 = 0) →
      ∃ s', List.foldl (addRowAcc nCols) (some s) l = some s' ∧
        s'.hPrev = s.hPrev ∧ s'.hNext = s.hNext ∧
        s'.hLen.length = s.hLen.length ∧
        lgetI s'.hLen c0 = lgetI s.hLen c0 ∧
        ∀ j, lgetI s.hLen j ≤ lgetI s'.hLen j := by
  intro l
  induction l with
  | nil =>
    intro s _ _
    exact ⟨s, rfl, rfl, rfl, rfl, rfl, fun j => le_refl _⟩
  | cons p l' ih =>
    intro s hB hC
    obtain ⟨s1, hrow, h1, h2, h3, h4, h5⟩ := addRow_facts nCols c0 s p.1 p.2
      (hB p (by simp)) (hC p (by simp))
    have hstep : addRowAcc nCols (some s) p = some s1 := by
      simp only [addRowAcc]
      exact hrow
    rw [List.foldl_cons, hstep]
    obtain ⟨s', hfold, g1, g2, g3, g4, g5⟩ := ih s1
      (fun p hp => hB p (List.mem_cons_of_mem _ hp))
      (fun p hp => hC p (List.mem_cons_of_mem _ hp))
    exact ⟨s', hfold, g1.trans h1, g2.trans h2, g3.trans h3, g4.trans h4,
      fun j => le_trans (h5 j) (g5 j)⟩

lemma buildRows_facts (nCols c0 : Nat) (s : St) (m : List (List Nat))
    (hlen : ∀ row ∈ m, (row : List Nat).length ≤ nCols)
    (hc0 : ∀ row ∈ m, lget row c0 = 0) :
    ∃ s', buildRows nCols s m = some s' ∧
      s'.hPrev = s.hPrev ∧ s'.hNext = s.hNext ∧
      s'.hLen.length = s.hLen.length ∧
      lgetI s'.hLen c0 = lgetI s.hLen c0 ∧
      ∀ j, lgetI s.hLen j ≤ lgetI s'.hLen j := by
  rw [buildRows_eq]
  exact buildRows_fold_facts nCols c0 m.enum s
    (fun p hp => hlen p.2 (mem_enum_spec m p hp).2.1)
    (fun p hp => hc0 p.2 (mem_enum_spec m p hp).2.1)

/-- After the root is spliced in, the header ring read from the root is
exactly `0, 1, ..., n-1`, the root's own link leads to header `0`, and the
size array just gains the root's `0` entry. -/
lemma addRoot_ring_facts (s' : St) (n : Nat) (hn : 1 ≤ n)
    (hP : s'.hPrev.length = n) (hN : s'.hNext.length = n)
    (hstep : ∀ j, j + 1 < n → lget s'.hNext j = j + 1)
    (hlast : lget s'.hNext (n - 1) = 0)
    (hprev0 : lget s'.hPrev 0 = n - 1) :
    lget (addRoot s' n).hNext n = 0 ∧
    (addRoot s' n).hNext.length = n + 1 ∧
    chase (lget (addRoot s' n).hNext) n (addRoot s' n).hNext.length n =
      List.range n ∧
    (addRoot s' n).hLen = s'.hLen ++ [0] := by
  obtain ⟨m, rfl⟩ : ∃ m, n = m + 1 := ⟨n - 1, by omega⟩
  simp only [Nat.add_sub_cancel] at hlast hprev0
  have hRN : (addRoot s' (m+1)).hNext =
      (s'.hNext ++ [0]).set (lget (s'.hPrev ++ [lget s'.hPrev 0]) 0) (m+1) :=
    rfl
  have hip : lget (s'.hPrev ++ [lget s'.hPrev 0]) 0 = m := by
    rw [lget_append_left (by rw [hP]; omega)]
    exact hprev0
  rw [hip] at hRN
  have hlen : (addRoot s' (m+1)).hNext.length = (m+1) + 1 := by
    rw [hRN, List.length_set, List.length_append, hN, List.length_singleton]
  have hroot : lget (addRoot s' (m+1)).hNext (m+1) = 0 := by
    rw [hRN, lget_set_ne _ (by omega), lget_append_right (le_of_eq hN), hN]
    have h0 : m + 1 - (m + 1) = 0 := by omega
    rw [h0]
    rfl
  have hfstep : ∀ j, j + 1 < m + 1 → lget (addRoot s' (m+1)).hNext j = j + 1 := by
    intro j hj
    rw [hRN, lget_set_ne _ (by omega), lget_append_left (by rw [hN]; omega)]
    exact hstep j hj
  have hflast : lget (addRoot s' (m+1)).hNext ((m+1) - 1) = m + 1 := by
    have hm1 : (m + 1) - 1 = m := by omega
    rw [hm1, hRN, lget_set_eq _
      (by rw [List.length_append, hN, List.length_singleton]; omega)]
  refine ⟨hroot, hlen, ?_, rfl⟩
  rw [hlen, chase]
  simp only [hroot]
  rw [if_neg (by omega : ¬ (0 : Nat) = m + 1)]
  rw [chase_upto (lget (addRoot s' (m+1)).hNext) (m+1) hfstep hflast m 0 (m+1)
    (by omega) (by omega)]
  rw [List.range_eq_range', List.range'_succ]

/-- C8: a (rectangular) matrix with a column of all zeros has no solution
and `solve` returns the empty list: the zero column's header sits in the
ring with `length = 0`, the first `recurse` invocation picks a minimum-size
header, finds its size `0` and returns without recording anything. -/
theorem solve_zero_column_empty (m : List (List Nat)) (cap c0 : Nat)
    (hrect : ∀ row ∈ m, (row : List Nat).length = (m.headD []).length)
    (hc0 : c0 < (m.headD []).length)
    (hzero : ∀ row ∈ m, lget row c0 = 0) :
    solve m cap = some [] := by
  cases m with
  | nil => simp at hc0
  | cons r0 rest =>
    simp only [List.headD_cons] at hrect hc0
    have hn1 : 1 ≤ r0.length := by omega
    obtain ⟨hCP, hCN, hCL, hCstep, hClast, hCprev0, hCzero⟩ :=
      buildCols_facts r0.length hn1
    obtain ⟨s', hbr, hBP, hBN, hBL, hBc0, hBmono⟩ :=
      buildRows_facts r0.length c0 (buildCols r0.length) (r0 :: rest)
        (fun row hr => le_of_eq (hrect row hr)) hzero
    have hsP : s'.hPrev.length = r0.length := by rw [hBP]; exact hCP
    have hsN : s'.hNext.length = r0.length := by rw [hBN]; exact hCN
    have hsstep : ∀ j, j + 1 < r0.length → lget s'.hNext j = j + 1 := by
      intro j hj
      rw [hBN]
      exact hCstep j hj
    have hslast : lget s'.hNext (r0.length - 1) = 0 := by
      rw [hBN]
      exact hClast
    have hsprev0 : lget s'.hPrev 0 = r0.length - 1 := by
      rw [hBP]
      exact hCprev0
    obtain ⟨hroot, hlen, hring, hRL⟩ :=
      addRoot_ring_facts s' r0.length hn1 hsP hsN hsstep hslast hsprev0
    have hzeroAll : ∀ j, lgetI (buildCols r0.length).hLen j = 0 :=
      lgetI_zero_of_forall _ hCzero
    have hS0c0 : lgetI (addRoot s' r0.length).hLen c0 = 0 := by
      rw [hRL, lgetI_append_left (by rw [hBL, hCL]; omega), hBc0]
      exact hzeroAll c0
    have hS0nn : ∀ j, 0 ≤ lgetI (addRoot s' r0.length).hLen j := by
      intro j
      rw [hRL]
      by_cases hb : j < s'.hLen.length
      · rw [lgetI_append_left hb]
        have hj := hBmono j
        rw [hzeroAll j] at hj
        exact hj
      · rw [lgetI_append_right (Nat.le_of_not_lt hb),
          lgetI_zero_of_forall ([0] : List Int) (by decide)
            (j - s'.hLen.length)]
    have hcons : List.range r0.length = 0 :: List.range' 1 (r0.length - 1) := by
      obtain ⟨m0, hm0⟩ : ∃ m0, r0.length = m0 + 1 := ⟨r0.length - 1, by omega⟩
      rw [hm0]
      simp only [Nat.add_sub_cancel]
      rw [List.range_eq_range', List.range'_succ]
    obtain ⟨b, pre, suf, hcb, hdecomp, hmin, -⟩ :=
      chooseBest_spec (addRoot s' r0.length) 0 (List.range' 1 (r0.length - 1))
    have hc0mem : c0 ∈ (0 : Nat) :: List.range' 1 (r0.length - 1) := by
      rw [← hcons]
      exact List.mem_range.mpr hc0
    have hble : lgetI (addRoot s' r0.length).hLen b ≤ 0 := by
      have hm := hmin c0 hc0mem
      rw [hS0c0] at hm
      exact hm
    have hb0 : lgetI (addRoot s' r0.length).hLen b = 0 :=
      le_antisymm hble (hS0nn b)
    have h1 : lget (addRoot s' r0.length).hNext r0.length ≠ r0.length := by
      rw [hroot]
      omega
    have h2 : chooseBest (addRoot s' r0.length)
        (chase (lget (addRoot s' r0.length).hNext) r0.length
          (addRoot s' r0.length).hNext.length r0.length) = some b := by
      rw [hring, hcons]
      exact hcb
    have hdead := recurse_dead_branch r0.length (addRoot s' r0.length)
      r0.length cap 0 [] [] b h1 h2 hb0
    have hbr2 : buildRows r0.length
        ((List.range r0.length).foldl addColumn stEmpty) (r0 :: rest) =
        some s' := hbr
    simp only [solve]
    rw [hbr2]
    simp only []
    rw [if_neg (by omega : ¬ r0.length = 0), hdead]

theorem solve_zero_column_empty_witness :
    (∀ row ∈ ([[0]] : List (List Nat)),
      (row : List Nat).length = (([[0]] : List (List Nat)).headD []).length) ∧
    0 < (([[0]] : List (List Nat)).headD []).length ∧
    (∀ row ∈ ([[0]] : List (List Nat)), lget row 0 = 0) ∧
    solve [[0]] 0 = some [] :=
  ⟨by decide, by decide, by decide,
   solve_zero_column_empty [[0]] 0 0 (by decide) (by decide) (by decide)⟩
